import Mathlib

/-!
Verification of the Ninja Park reconciliation-and-classification engine
(`src/app.py`) against its natural-language specification.

Strings are modelled as `List Char` (with `String` wrappers where a claim
reads better that way).  Python's Unicode case mapping is modelled by Lean's
ASCII `Char.toLower`/`Char.toUpper`; Python's `\s` / `str.strip` whitespace
class is modelled by an explicit predicate covering ASCII whitespace plus the
common Unicode space code points that the inputs can contain (in particular
U+00A0, which the source handles explicitly).  Python regular-expression
searches are modelled by positional leftmost-match scanners that mirror the
greedy/backtracking behaviour of the concrete patterns in the source.
-/

namespace NinjaPark

/-- Python whitespace (`\s`, `str.strip`): ASCII whitespace and separator
control characters plus the Unicode space code points relevant to these
documents (in particular NBSP, U+00A0).  Written on code points to keep the
source free of invisible characters. -/
def pyWhite (c : Char) : Bool :=
  c.toNat = 32 || c.toNat = 9 || c.toNat = 10 || c.toNat = 13 ||
  c.toNat = 11 || c.toNat = 12 || c.toNat = 0x1c || c.toNat = 0x1d ||
  c.toNat = 0x1e || c.toNat = 0x1f || c.toNat = 0x85 || c.toNat = 0xa0 ||
  c.toNat = 0x1680 || (0x2000 ≤ c.toNat && c.toNat ≤ 0x200a) ||
  c.toNat = 0x2028 || c.toNat = 0x2029 || c.toNat = 0x202f ||
  c.toNat = 0x205f || c.toNat = 0x3000

/-- Python `\w` word character (ASCII model): letter, digit or underscore. -/
def wordChar (c : Char) : Bool :=
  (65 ≤ c.toNat && c.toNat ≤ 90) || (97 ≤ c.toNat && c.toNat ≤ 122) ||
  (48 ≤ c.toNat && c.toNat ≤ 57) || c.toNat = 95

/-- Python `str.lower` on a character (ASCII model). -/
def pyLower (c : Char) : Char :=
  if 65 ≤ c.toNat ∧ c.toNat ≤ 90 then Char.ofNat (c.toNat + 32) else c

/-- Python `str.upper` on a character (ASCII model). -/
def pyUpper (c : Char) : Char :=
  if 97 ≤ c.toNat ∧ c.toNat ≤ 122 then Char.ofNat (c.toNat - 32) else c

/-- Cased character (ASCII model), as used by Python `str.title`. -/
def casedChar (c : Char) : Bool :=
  (97 ≤ c.toNat && c.toNat ≤ 122) || (65 ≤ c.toNat && c.toNat ≤ 90)

def lowerL (s : List Char) : List Char := s.map pyLower

/-- Python `str.title`: a character preceded by a cased character is
lowercased, any other character is uppercased.  `prev` is the casedness of
the previous character (`false` at the start of the string). -/
def titleAux (prev : Bool) : List Char → List Char
  | [] => []
  | c :: rest =>
      (if prev then pyLower c else pyUpper c) :: titleAux (casedChar c) rest

def pyTitle (s : List Char) : List Char := titleAux false s

/-- `re.sub(r'\s+', ' ', s)`: replace each maximal whitespace run by one
ASCII space.  `inWs` records whether the scanner is inside a whitespace run
whose replacement space has already been emitted. -/
def collapseAux (inWs : Bool) : List Char → List Char
  | [] => []
  | c :: rest =>
      if pyWhite c then
        if inWs then collapseAux true rest else ' ' :: collapseAux true rest
      else c :: collapseAux false rest

def collapseWs (s : List Char) : List Char := collapseAux false s

/-- `str.replace(old, new)` for a single-character pattern. -/
def charReplace (old new : Char) (s : List Char) : List Char :=
  s.map fun c => if c = old then new else c

/-- `str.strip()`. -/
def stripWs (s : List Char) : List Char :=
  ((s.dropWhile pyWhite).reverse.dropWhile pyWhite).reverse

/-- `clean_name` body on an actual string:
`re.sub(r'\s+', ' ', name).replace(u'\xa0', ' ').strip()` then `.title()`. -/
def cleanNameL (s : List Char) : List Char :=
  pyTitle (stripWs (charReplace '\xa0' ' ' (collapseWs s)))

/-- `clean_name`: non-`str` input (modelled as `none`) yields `""`. -/
def cleanName : Option String → String
  | none => ""
  | some s => ⟨cleanNameL s.data⟩

/-! ### Character-level facts used by the normalizer proofs -/

theorem char_le_iff {a b : Char} : a ≤ b ↔ a.toNat ≤ b.toNat := by
  rw [Char.le_def, UInt32.le_def, BitVec.le_def]; rfl

theorem toNat_ofNat_valid {n : Nat} (h : n < 0xd800) : (Char.ofNat n).toNat = n := by
  unfold Char.ofNat
  rw [dif_pos (Or.inl h)]
  rfl

theorem char_eq_iff_toNat {a b : Char} : a = b ↔ a.toNat = b.toNat := by
  constructor
  · intro h; rw [h]
  · intro h
    apply Char.eq_of_val_eq
    apply UInt32.eq_of_toBitVec_eq
    apply BitVec.eq_of_toNat_eq h

theorem pyLower_toNat (c : Char) :
    (pyLower c).toNat = if 65 ≤ c.toNat ∧ c.toNat ≤ 90 then c.toNat + 32 else c.toNat := by
  unfold pyLower
  split
  · next h => exact toNat_ofNat_valid (by omega)
  · rfl

theorem pyUpper_toNat (c : Char) :
    (pyUpper c).toNat = if 97 ≤ c.toNat ∧ c.toNat ≤ 122 then c.toNat - 32 else c.toNat := by
  unfold pyUpper
  split
  · next h => exact toNat_ofNat_valid (by omega)
  · rfl

theorem pyLower_pyLower (c : Char) : pyLower (pyLower c) = pyLower c := by
  rw [char_eq_iff_toNat]
  simp only [pyLower_toNat]
  split_ifs <;> omega

theorem pyUpper_pyUpper (c : Char) : pyUpper (pyUpper c) = pyUpper c := by
  rw [char_eq_iff_toNat]
  simp only [pyUpper_toNat]
  split_ifs <;> omega

theorem casedChar_pyLower (c : Char) : casedChar (pyLower c) = casedChar c := by
  simp only [casedChar, pyLower_toNat]
  split_ifs with h
  · rw [Bool.eq_iff_iff]; simp; omega
  · rfl

theorem casedChar_pyUpper (c : Char) : casedChar (pyUpper c) = casedChar c := by
  simp only [casedChar, pyUpper_toNat]
  split_ifs with h
  · rw [Bool.eq_iff_iff]; simp; omega
  · rfl

theorem pyWhite_pyLower (c : Char) : pyWhite (pyLower c) = pyWhite c := by
  simp only [pyWhite, pyLower_toNat]
  split_ifs with h
  · rw [Bool.eq_iff_iff]; simp; omega
  · rfl

theorem pyWhite_pyUpper (c : Char) : pyWhite (pyUpper c) = pyWhite c := by
  simp only [pyWhite, pyUpper_toNat]
  split_ifs with h
  · rw [Bool.eq_iff_iff]; simp; omega
  · rfl

theorem space_toNat : (' ' : Char).toNat = 32 := rfl

theorem pyLower_space : pyLower ' ' = ' ' := rfl

theorem pyUpper_space : pyUpper ' ' = ' ' := rfl

theorem pyLower_of_white {c : Char} (h : pyWhite c = true) : pyLower c = c := by
  rw [char_eq_iff_toNat, pyLower_toNat]
  simp only [pyWhite, Bool.or_eq_true, Bool.and_eq_true, decide_eq_true_eq] at h
  split_ifs with h2
  · omega
  · rfl

theorem pyUpper_of_white {c : Char} (h : pyWhite c = true) : pyUpper c = c := by
  rw [char_eq_iff_toNat, pyUpper_toNat]
  simp only [pyWhite, Bool.or_eq_true, Bool.and_eq_true, decide_eq_true_eq] at h
  split_ifs with h2
  · omega
  · rfl

/-! ### Whitespace structure of normalized names -/

/-- Every whitespace character of the string is a plain ASCII space. -/
def wsOnlySpace (s : List Char) : Prop := ∀ c ∈ s, pyWhite c = true → c = ' '

/-- Two adjacent characters are never both whitespace. -/
def wsSep (a b : Char) : Prop := ¬(pyWhite a = true ∧ pyWhite b = true)

def noAdjWs (s : List Char) : Prop := List.Chain' wsSep s

def frontNotWs (s : List Char) : Prop := ∀ c, s.head? = some c → pyWhite c = false

def backNotWs (s : List Char) : Prop := ∀ c, s.getLast? = some c → pyWhite c = false

theorem head?_dropWhile {p : α → Bool} {s : List α} {c : α}
    (h : (s.dropWhile p).head? = some c) : p c = false := by
  induction s with
  | nil => simp [List.dropWhile] at h
  | cons a t ih =>
    rw [List.dropWhile] at h
    cases hp : p a with
    | true => rw [hp] at h; exact ih h
    | false => rw [hp] at h; simp at h; rw [← h]; exact hp

theorem dropWhile_eq_self {p : α → Bool} {s : List α}
    (h : ∀ c, s.head? = some c → p c = false) : s.dropWhile p = s := by
  cases s with
  | nil => rfl
  | cons a t => rw [List.dropWhile, h a rfl]

theorem collapseAux_wsOnly (s : List Char) : ∀ b, wsOnlySpace (collapseAux b s) := by
  induction s with
  | nil => intro b c hc; simp [collapseAux] at hc
  | cons a t ih =>
    intro b c hc hw
    rw [collapseAux] at hc
    by_cases ha : pyWhite a = true
    · rw [if_pos ha] at hc
      cases b with
      | true => exact ih true c hc hw
      | false =>
        rw [if_neg Bool.false_ne_true] at hc
        rcases List.mem_cons.1 hc with h1 | h2
        · exact h1
        · exact ih true c h2 hw
    · rw [if_neg ha] at hc
      rcases List.mem_cons.1 hc with h1 | h2
      · subst h1; exact absurd hw ha
      · exact ih false c h2 hw

theorem collapseAux_true_front (s : List Char) : frontNotWs (collapseAux true s) := by
  induction s with
  | nil => intro c hc; simp [collapseAux] at hc
  | cons a t ih =>
    intro c hc
    rw [collapseAux] at hc
    by_cases ha : pyWhite a = true
    · rw [if_pos ha] at hc; exact ih c hc
    · rw [if_neg ha] at hc
      simp at hc
      rw [← hc]
      simpa using ha

theorem collapseAux_noAdj (s : List Char) : ∀ b, noAdjWs (collapseAux b s) := by
  induction s with
  | nil => intro b; simp [collapseAux, noAdjWs]
  | cons a t ih =>
    intro b
    rw [collapseAux]
    by_cases ha : pyWhite a = true
    · rw [if_pos ha]
      cases b with
      | true => exact ih true
      | false =>
        rw [if_neg Bool.false_ne_true]
        rw [noAdjWs, List.chain'_cons']
        refine ⟨?_, ih true⟩
        intro y hy hcontra
        have := collapseAux_true_front t y hy
        rw [this] at hcontra
        exact Bool.false_ne_true hcontra.2
    · rw [if_neg ha]
      rw [noAdjWs, List.chain'_cons']
      refine ⟨?_, ih false⟩
      intro y hy hcontra
      exact ha hcontra.1

theorem collapseAux_true_of_front (s : List Char) (h : frontNotWs s) :
    collapseAux true s = collapseAux false s := by
  cases s with
  | nil => rfl
  | cons a t =>
    have := h a rfl
    rw [collapseAux, collapseAux, this]
    simp

theorem collapseAux_fixed (s : List Char) (h1 : wsOnlySpace s) (h2 : noAdjWs s) :
    collapseAux false s = s := by
  induction s with
  | nil => rfl
  | cons a t ih =>
    have ht1 : wsOnlySpace t := fun c hc => h1 c (List.mem_cons_of_mem a hc)
    have ht2 : noAdjWs t := List.Chain'.tail h2
    rw [collapseAux]
    by_cases ha : pyWhite a = true
    · rw [if_pos ha]
      rw [if_neg Bool.false_ne_true]
      have hea : a = ' ' := h1 a (List.mem_cons_self a t) ha
      have hfront : frontNotWs t := by
        intro c hc
        have := (List.chain'_cons'.1 h2).1 c hc
        rw [wsSep] at this
        cases hw : pyWhite c with
        | false => rfl
        | true => exact absurd ⟨ha, hw⟩ this
      rw [collapseAux_true_of_front t hfront, ih ht1 ht2, hea]
    · rw [if_neg ha, ih ht1 ht2]

theorem collapseWs_wsOnly (s : List Char) : wsOnlySpace (collapseWs s) :=
  collapseAux_wsOnly s false

theorem collapseWs_noAdj (s : List Char) : noAdjWs (collapseWs s) :=
  collapseAux_noAdj s false

theorem collapseWs_fixed (s : List Char) (h1 : wsOnlySpace s) (h2 : noAdjWs s) :
    collapseWs s = s := collapseAux_fixed s h1 h2

theorem charReplace_id (s : List Char) (h : wsOnlySpace s) :
    charReplace '\xa0' ' ' s = s := by
  rw [charReplace]
  induction s with
  | nil => rfl
  | cons a t ih =>
    simp only [List.map_cons]
    have ht : wsOnlySpace t := fun c hc => h c (List.mem_cons_of_mem a hc)
    rw [ih ht]
    have : ¬ a = '\xa0' := by
      intro hcontra
      have hw : pyWhite a = true := by rw [hcontra]; decide
      have := h a (List.mem_cons_self a t) hw
      rw [hcontra] at this
      exact absurd this (by decide)
    simp [this]

theorem wsOnly_subset {s t : List Char} (hsub : s ⊆ t) (h : wsOnlySpace t) :
    wsOnlySpace s := fun c hc => h c (hsub hc)

theorem noAdjWs_reverse {s : List Char} (h : noAdjWs s) : noAdjWs s.reverse := by
  rw [noAdjWs, List.chain'_reverse]
  exact List.Chain'.imp (fun a b hab hc => hab ⟨hc.2, hc.1⟩) h

theorem stripWs_wsOnly (s : List Char) (h : wsOnlySpace s) : wsOnlySpace (stripWs s) := by
  apply wsOnly_subset _ h
  rw [stripWs]
  intro c hc
  rw [List.mem_reverse] at hc
  have hc2 := (List.dropWhile_sublist pyWhite).subset hc
  rw [List.mem_reverse] at hc2
  exact (List.dropWhile_sublist pyWhite).subset hc2

theorem stripWs_noAdj (s : List Char) (h : noAdjWs s) : noAdjWs (stripWs s) := by
  rw [stripWs]
  apply noAdjWs_reverse
  apply List.Chain'.suffix _ (List.dropWhile_suffix pyWhite)
  apply noAdjWs_reverse
  exact List.Chain'.suffix h (List.dropWhile_suffix pyWhite)

theorem stripWs_back (s : List Char) : backNotWs (stripWs s) := by
  intro c hc
  rw [stripWs, List.getLast?_reverse] at hc
  exact head?_dropWhile hc

theorem stripWs_front (s : List Char) : frontNotWs (stripWs s) := by
  intro c hc
  rw [stripWs] at hc
  rcases hrep : (s.dropWhile pyWhite).reverse.dropWhile pyWhite with _ | ⟨a, t⟩
  · rw [hrep] at hc; simp at hc
  · rw [hrep] at hc
    have hpre : ((a :: t).reverse : List Char) <+: s.dropWhile pyWhite := by
      have hsuf : (a :: t) <:+ (s.dropWhile pyWhite).reverse := by
        rw [← hrep]; exact List.dropWhile_suffix pyWhite
      rcases hsuf with ⟨u, hu⟩
      refine ⟨u.reverse, ?_⟩
      rw [← List.reverse_append, hu, List.reverse_reverse]
    rcases hpre with ⟨v, hv⟩
    have hne : ((a :: t).reverse : List Char) ≠ [] := by simp
    have : (s.dropWhile pyWhite).head? = some c := by
      rw [← hv, List.head?_append_of_ne_nil _ hne]
      rw [← hc]
    exact head?_dropWhile this

theorem stripWs_fixed (s : List Char) (h1 : frontNotWs s) (h2 : backNotWs s) :
    stripWs s = s := by
  rw [stripWs, dropWhile_eq_self h1]
  have : s.reverse.dropWhile pyWhite = s.reverse := by
    apply dropWhile_eq_self
    intro c hc
    rw [List.head?_reverse] at hc
    exact h2 c hc
  rw [this, List.reverse_reverse]


/-! ### Title casing -/

theorem titleAux_cons (b : Bool) (c : Char) (t : List Char) :
    titleAux b (c :: t) =
      (if b then pyLower c else pyUpper c) :: titleAux (casedChar c) t := rfl

theorem titleAux_head? (b : Bool) (t : List Char) :
    (titleAux b t).head? = t.head?.map (fun c => if b then pyLower c else pyUpper c) := by
  cases t <;> rfl

theorem pyWhite_tmap (b : Bool) (c : Char) :
    pyWhite (if b then pyLower c else pyUpper c) = pyWhite c := by
  cases b
  · simp [pyWhite_pyUpper]
  · simp [pyWhite_pyLower]

theorem tmap_space (b : Bool) : (if b then pyLower ' ' else pyUpper ' ') = ' ' := by
  cases b <;> rfl

theorem titleAux_wsOnly (s : List Char) (h : wsOnlySpace s) (b : Bool) :
    wsOnlySpace (titleAux b s) := by
  induction s generalizing b with
  | nil => intro c hc; simp [titleAux] at hc
  | cons a t ih =>
    intro c hc hw
    rw [titleAux_cons] at hc
    rcases List.mem_cons.1 hc with h1 | h2
    · subst h1
      rw [pyWhite_tmap] at hw
      rw [h a (List.mem_cons_self a t) hw]
      exact tmap_space b
    · exact ih (fun d hd => h d (List.mem_cons_of_mem a hd)) (casedChar a) c h2 hw

theorem titleAux_front (s : List Char) (h : frontNotWs s) (b : Bool) :
    frontNotWs (titleAux b s) := by
  cases s with
  | nil => intro c hc; simp [titleAux] at hc
  | cons a t =>
    intro c hc
    rw [titleAux_cons] at hc
    simp at hc
    rw [← hc, pyWhite_tmap]
    exact h a rfl

theorem titleAux_noAdj (s : List Char) (h : noAdjWs s) (b : Bool) :
    noAdjWs (titleAux b s) := by
  induction s generalizing b with
  | nil => simp [titleAux, noAdjWs]
  | cons a t ih =>
    rw [titleAux_cons, noAdjWs, List.chain'_cons']
    refine ⟨?_, ih (List.Chain'.tail h) (casedChar a)⟩
    intro y hy hcontra
    rw [titleAux_head?] at hy
    rcases ht : t.head? with _ | ⟨a2⟩
    · rw [ht] at hy; simp at hy
    · rw [ht] at hy
      simp at hy
      have hsep := (List.chain'_cons'.1 h).1 a2 ht
      rw [wsSep] at hsep
      rw [← hy, pyWhite_tmap, pyWhite_tmap] at hcontra
      exact hsep ⟨hcontra.1, hcontra.2⟩

theorem titleAux_ne_nil (b : Bool) (c : Char) (t : List Char) :
    titleAux b (c :: t) ≠ [] := by
  rw [titleAux_cons]; simp

theorem titleAux_back (s : List Char) (h : backNotWs s) (b : Bool) :
    backNotWs (titleAux b s) := by
  induction s generalizing b with
  | nil => intro c hc; simp [titleAux] at hc
  | cons a t ih =>
    intro c hc
    cases t with
    | nil =>
      rw [titleAux_cons] at hc
      simp [titleAux] at hc
      rw [← hc, pyWhite_tmap]
      exact h a rfl
    | cons a2 t2 =>
      rw [titleAux_cons, titleAux_cons, List.getLast?_cons_cons] at hc
      have hb : backNotWs (a2 :: t2) := by
        intro d hd
        apply h d
        rw [List.getLast?_cons_cons]
        exact hd
      exact ih hb (casedChar a) c hc

theorem tmap_idem (b : Bool) (c : Char) :
    (if b then pyLower (if b then pyLower c else pyUpper c)
     else pyUpper (if b then pyLower c else pyUpper c)) =
      (if b then pyLower c else pyUpper c) := by
  cases b
  · simp [pyUpper_pyUpper]
  · simp [pyLower_pyLower]

theorem casedChar_tmap (b : Bool) (c : Char) :
    casedChar (if b then pyLower c else pyUpper c) = casedChar c := by
  cases b
  · simp [casedChar_pyUpper]
  · simp [casedChar_pyLower]

theorem titleAux_idem (s : List Char) : ∀ b, titleAux b (titleAux b s) = titleAux b s := by
  induction s with
  | nil => intro b; rfl
  | cons a t ih =>
    intro b
    rw [titleAux_cons, titleAux_cons, tmap_idem, casedChar_tmap]
    rw [ih (casedChar a)]

/-! ### Idempotence of `clean_name` -/

theorem cleanNameL_idem (s : List Char) : cleanNameL (cleanNameL s) = cleanNameL s := by
  have h1 : wsOnlySpace (collapseWs s) := collapseWs_wsOnly s
  have h2 : noAdjWs (collapseWs s) := collapseWs_noAdj s
  have hrep : charReplace '\xa0' ' ' (collapseWs s) = collapseWs s := charReplace_id _ h1
  have hu1 : wsOnlySpace (stripWs (collapseWs s)) := stripWs_wsOnly _ h1
  have hu2 : noAdjWs (stripWs (collapseWs s)) := stripWs_noAdj _ h2
  have hu3 : frontNotWs (stripWs (collapseWs s)) := stripWs_front _
  have hu4 : backNotWs (stripWs (collapseWs s)) := stripWs_back _
  have ht1 : wsOnlySpace (cleanNameL s) := by
    rw [cleanNameL, hrep]; exact titleAux_wsOnly _ hu1 false
  have ht2 : noAdjWs (cleanNameL s) := by
    rw [cleanNameL, hrep]; exact titleAux_noAdj _ hu2 false
  have ht3 : frontNotWs (cleanNameL s) := by
    rw [cleanNameL, hrep]; exact titleAux_front _ hu3 false
  have ht4 : backNotWs (cleanNameL s) := by
    rw [cleanNameL, hrep]; exact titleAux_back _ hu4 false
  conv_lhs => rw [cleanNameL]
  rw [collapseWs_fixed _ ht1 ht2, charReplace_id _ ht1, stripWs_fixed _ ht3 ht4]
  conv_lhs => rw [cleanNameL, hrep]
  conv_rhs => rw [cleanNameL, hrep]
  exact titleAux_idem _ false

/-- The apostrophe character, U+0027. -/
def apostropheChar : Char := Char.ofNat 39

/-- The raw roster name from the specification example:
two leading spaces, lowercase given name, a run of inner spaces, a surname
with an internal apostrophe, and a trailing space followed by a no-break
space (U+00A0). -/
def exampleRawName : List Char :=
  [' ', ' ', 'j', 'o', 'h', 'n', ' ', ' ', ' ',
   'O', apostropheChar, 'n', 'e', 'i', 'l', ' ', '\xa0']

def exampleCleanName : List Char :=
  ['J', 'o', 'h', 'n', ' ', 'O', apostropheChar, 'N', 'e', 'i', 'l']

/-- Claim C8: `clean_name` (the spec name normalizer `normalizeName`) is
idempotent on every input, including empty and non-string input (modelled as
`none`), and the specification example — two leading spaces, `john` with an
inner whitespace run, a surname with an internal apostrophe, and a trailing
space plus no-break space — normalizes to the title-cased, single-spaced,
trimmed fixed point. -/
theorem C8_clean_name_idempotent :
    (∀ x : Option String, cleanName (some (cleanName x)) = cleanName x) ∧
    cleanName (some ⟨exampleRawName⟩) = (⟨exampleCleanName⟩ : String) := by
  constructor
  · intro x
    cases x with
    | none => rfl
    | some s => exact congrArg String.mk (cleanNameL_idem s.data)
  · decide


/-! ### Field normalizers: numeric rank extraction -/

/-- First maximal digit run of a string (the regex `(\d+)` in `re.search`),
if any. -/
def firstDigitRun : List Char → Option (List Char)
  | [] => none
  | c :: rest =>
      if c.isDigit then some (c :: rest.takeWhile Char.isDigit)
      else firstDigitRun rest

def digitsToNat (l : List Char) : Nat :=
  l.foldl (fun acc c => acc * 10 + (c.toNat - 48)) 0

/-- `parse_skill_number`: `int` of the first digit run, default `0`. -/
def parse_skill_number (s : String) : Nat :=
  match firstDigitRun s.data with
  | some ds => digitsToNat ds
  | none => 0

/-- `parse_group_number`: `int` of the first digit run, default `99`. -/
def parse_group_number (s : String) : Nat :=
  match firstDigitRun s.data with
  | some ds => digitsToNat ds
  | none => 99

/-- `parse_age`: `int` of the first digit run, default `99`. -/
def parse_age (s : String) : Nat :=
  match firstDigitRun s.data with
  | some ds => digitsToNat ds
  | none => 99

/-- Python `int(text)`: optional surrounding whitespace, optional sign, then
a nonempty digit string; anything else fails. -/
def pyInt (s : List Char) : Option Int :=
  let t := ((s.dropWhile pyWhite).reverse.dropWhile pyWhite).reverse
  match t with
  | '+' :: ds =>
      if ds ≠ [] ∧ ds.all Char.isDigit then some (digitsToNat ds) else none
  | '-' :: ds =>
      if ds ≠ [] ∧ ds.all Char.isDigit then some (-(digitsToNat ds : Int)) else none
  | ds =>
      if ds ≠ [] ∧ ds.all Char.isDigit then some (digitsToNat ds) else none

/-- `parse_attendance`: `int(att_str)` with `-1` on failure. -/
def parse_attendance (s : String) : Int :=
  (pyInt s.data).getD (-1)

/-! ### Substring containment (the Python `in` operator) -/

def containsSub (s pat : List Char) : Bool :=
  match s with
  | [] => pat.isEmpty
  | _ :: rest => pat.isPrefixOf s || containsSub rest pat

/-! ### The highlight classifier -/

/-- One row of the `final_records` list handed to `apply_highlight_rules`:
the dashboard columns `Student Name, Age, Attend#, Keyword, Level,
Class Name, RS Comment`. -/
structure SheetRow where
  studentName : String
  age : String
  attendNum : String
  keyword : String
  level : String
  className : String
  rsComment : String
deriving DecidableEq

instance : Inhabited SheetRow := ⟨⟨"", "", "", "", "", "", ""⟩⟩

/-- The highlight categories of the base rules and the move-up rule:
`red` is the bold red text format, `orange` the light-red background given
to blank-group rows, `yellow` the yellow background, `green` the green
background of the move-up rule. -/
inductive Highlight where
  | red
  | orange
  | yellow
  | green
deriving DecidableEq

/-- `"ignore" in str(row.get("RS Comment", "")).lower()`. -/
def hasIgnoreComment (r : SheetRow) : Bool :=
  containsSub (lowerL r.rsComment.data) "ignore".data

/-- `"advanced" in str(row.get("Class Name", "")).lower()`. -/
def isAdvancedClass (r : SheetRow) : Bool :=
  containsSub (lowerL r.className.data) "advanced".data

/-- The Yellow skill/group matrix of the base pass, keyed on the advanced
flag. -/
def yellowTest (adv : Bool) (group skill : Nat) : Bool :=
  if adv then
    (group = 1 && skill ≥ 5) || (group = 2 && skill ≥ 7) || (group = 3 && skill = 3)
  else
    (group = 1 && skill ≥ 2) || (group = 2 && skill = 0) || (group = 3 && skill ≤ 1)

/-- The base pass of `apply_highlight_rules` on one row: skip blank and
`"open"` names, skip ignore comments, then Red, Orange, Yellow in priority
order. -/
def baseFmt (r : SheetRow) : Option Highlight :=
  if r.studentName = "" ∨ r.studentName = "open" then none
  else if hasIgnoreComment r then none
  else
    let skill := parse_skill_number r.level
    let group := parse_group_number r.keyword
    let adv := isAdvancedClass r
    if adv = false ∧ skill ≥ 3 then some .red
    else if group = 99 then some .orange
    else if yellowTest adv group skill then some .yellow
    else none

/-- The scan predicate of the Green pass at index `i`: not an ignore
comment, not an `"open"` row, current format still `None`. -/
def greenCandidate (recs : List SheetRow) (fmts : List (Option Highlight)) (i : Nat) : Bool :=
  !hasIgnoreComment (recs.getD i default) &&
  !((recs.getD i default).studentName == "open") &&
  (fmts.getD i none).isNone

/-- `apply_green_recursive`: walk `indices` in reverse, skip ignore and
`"open"` rows, give the first still-unformatted row the green background and
stop. -/
def apply_green_recursive (recs : List SheetRow) (fmts : List (Option Highlight))
    (idxs : List Nat) : List (Option Highlight) :=
  match idxs.reverse.find? (greenCandidate recs fmts) with
  | none => fmts
  | some i => fmts.set i (some .green)

/-- `[i for i, r in enumerate(df_records) if parse_group_number(r.get("Keyword", "")) == g]`. -/
def groupIndices (recs : List SheetRow) (g : Nat) : List Nat :=
  (List.range recs.length).filter fun i =>
    parse_group_number (recs.getD i default).keyword = g

/-- `apply_highlight_rules`: the base pass followed by the Green move-up
pass for Group 1 and then Group 2. -/
def apply_highlight_rules (recs : List SheetRow) : List (Option Highlight) :=
  let base := recs.map baseFmt
  let f1 := apply_green_recursive recs base (groupIndices recs 1)
  apply_green_recursive recs f1 (groupIndices recs 2)


/-! ### The ignore rule -/

theorem baseFmt_of_ignore {r : SheetRow} (h : hasIgnoreComment r = true) :
    baseFmt r = none := by
  simp [baseFmt, h]

theorem greenCandidate_not_ignore {recs : List SheetRow} {fmts : List (Option Highlight)}
    {i : Nat} (h : greenCandidate recs fmts i = true) :
    hasIgnoreComment (recs.getD i default) = false := by
  rw [greenCandidate] at h
  simp only [Bool.and_eq_true, Bool.not_eq_true'] at h
  exact h.1.1

theorem apply_green_getD_of_ignore (recs : List SheetRow) (fmts : List (Option Highlight))
    (idxs : List Nat) (i : Nat)
    (hig : hasIgnoreComment (recs.getD i default) = true) :
    (apply_green_recursive recs fmts idxs).getD i none = fmts.getD i none := by
  rw [apply_green_recursive]
  rcases hfind : idxs.reverse.find? (greenCandidate recs fmts) with _ | ⟨j⟩
  · rfl
  · have hj : greenCandidate recs fmts j = true := List.find?_some hfind
    have hne : j ≠ i := by
      intro hcontra
      rw [hcontra] at hj
      rw [greenCandidate_not_ignore hj] at hig
      exact Bool.false_ne_true hig
    simp only [List.getD_eq_getElem?_getD]
    rw [List.getElem?_set_ne hne]

theorem map_getD_of_lt (f : α → β) (l : List α) (i : Nat) (h : i < l.length)
    (d : β) (d' : α) : (l.map f).getD i d = f (l.getD i d') := by
  simp only [List.getD_eq_getElem?_getD, List.getElem?_map]
  rw [List.getElem?_eq_getElem h]
  rfl

/-- Claim C6: a row whose comment contains the substring `"ignore"` in any
letter case receives no highlight at all from `apply_highlight_rules` — it
gets neither Red, Orange nor Yellow in the base pass, and the Green move-up
pass skips it, whatever its skill, group or class-name fields hold. -/
theorem C6_ignore_rule (recs : List SheetRow) (i : Nat) (hi : i < recs.length)
    (hig : hasIgnoreComment (recs.getD i default) = true) :
    (apply_highlight_rules recs).getD i none = none := by
  rw [apply_highlight_rules]
  rw [apply_green_getD_of_ignore _ _ _ _ hig, apply_green_getD_of_ignore _ _ _ _ hig]
  rw [map_getD_of_lt baseFmt recs i hi none default]
  exact baseFmt_of_ignore hig

/-- A Group-1 row with a high skill whose comment carries an `"Ignore"` tag. -/
def ignoredRow : SheetRow :=
  ⟨"Dana", "9", "3", "Group 1", "s7", "Mon 3:40 Ninjas", "please Ignore this one"⟩

/-- Witness for C6: on a concrete one-row block whose comment contains
`"Ignore"`, the classifier assigns no category. -/
theorem C6_ignore_rule_witness :
    0 < ([ignoredRow] : List SheetRow).length ∧
      hasIgnoreComment (([ignoredRow] : List SheetRow).getD 0 default) = true ∧
      (apply_highlight_rules [ignoredRow]).getD 0 none = none :=
  ⟨by decide, by decide, C6_ignore_rule [ignoredRow] 0 (by decide) (by decide)⟩


/-! ### Schedule parsing: the day and time regex scanners -/

def dayWordsLower : List (List Char) :=
  ["mon".data, "tue".data, "wed".data, "thu".data, "fri".data]

/-- Try `\b(Mon|Tue|Wed|Thu|Fri)\b` (ignoring case) at the current position;
the boundary before the position is checked by the caller, the boundary
after the three letters here.  Returns the matched text. -/
def tryDayAt (l : List Char) : Option (List Char) :=
  match l with
  | c1 :: c2 :: c3 :: rest =>
      if dayWordsLower.contains [pyLower c1, pyLower c2, pyLower c3] &&
          (match rest with
           | [] => true
           | d :: _ => !wordChar d) then
        some [c1, c2, c3]
      else none
  | _ => none

/-- Leftmost search for the day pattern; `prevWord` is whether the previous
character is a word character (no match may start there, `\b`). -/
def findDaySearch (prevWord : Bool) : List Char → Option (List Char)
  | [] => none
  | c :: rest =>
      match if prevWord then none else tryDayAt (c :: rest) with
      | some m => some m
      | none => findDaySearch (wordChar c) rest

def findDay (s : List Char) : Option (List Char) := findDaySearch false s

/-- The one-digit-hour branch of `(\d{1,2}):(\d{2})` at a position whose
first character `d1` is already known to be a digit. -/
def tryTime1 (d1 : Char) (rest : List Char) : Option (List Char × List Char) :=
  match rest with
  | c :: d3 :: d4 :: _ =>
      if c = ':' && d3.isDigit && d4.isDigit then some ([d1], [d3, d4]) else none
  | _ => none

/-- Try `(\d{1,2}):(\d{2})` at the current position: the greedy two-digit
hour first, then the one-digit hour.  Returns (hour digits, minute digits). -/
def tryTimeAt : List Char → Option (List Char × List Char)
  | [] => none
  | d1 :: rest =>
      if d1.isDigit then
        match rest with
        | d2 :: c :: d3 :: d4 :: _ =>
            if d2.isDigit && c = ':' && d3.isDigit && d4.isDigit then
              some ([d1, d2], [d3, d4])
            else tryTime1 d1 rest
        | _ => tryTime1 d1 rest
      else none

def findTimeSearch : List Char → Option (List Char × List Char)
  | [] => none
  | c :: rest =>
      match tryTimeAt (c :: rest) with
      | some m => some m
      | none => findTimeSearch rest

/-- `parse_class_info`: non-string input (`none`) and the `"Not Found"`
sentinel yield `("Lost", 9999, "")`; otherwise the day is the first
case-insensitive whole-word weekday match (title-cased) and the time the
first `H:MM`/`HH:MM` match, with hours below 8 shifted to the afternoon. -/
def parse_class_info (x : Option String) : String × Nat × String :=
  match x with
  | none => ("Lost", 9999, "")
  | some s =>
      if s = "Not Found" then ("Lost", 9999, "")
      else
        let day := match findDay s.data with
          | some m => (⟨pyTitle m⟩ : String)
          | none => "Lost"
        let time := match findTimeSearch s.data with
          | some (h, m) =>
              let hour := digitsToNat h
              let hour2 := if hour < 8 then hour + 12 else hour
              (hour2 * 100 + digitsToNat m, (⟨h ++ ':' :: m⟩ : String))
          | none => (9999, "")
        (day, time.1, time.2)

/-! ### Class-name abbreviation -/

/-- The `\d{1,2}/\d{4}.*` tail of the date pattern after the second slash is
handled inside these two helpers; `tryDateTail1` is the one-digit branch of
the second `\d{1,2}`. -/
def tryDateTail1 (l : List Char) : Option Nat :=
  match l with
  | b1 :: '/' :: y1 :: y2 :: y3 :: y4 :: rest =>
      if b1.isDigit && y1.isDigit && y2.isDigit && y3.isDigit && y4.isDigit then
        some (1 + 1 + 4 + (rest.takeWhile (fun c => c ≠ '\n')).length)
      else none
  | _ => none

def tryDateTail (l : List Char) : Option Nat :=
  match l with
  | b1 :: b2 :: '/' :: y1 :: y2 :: y3 :: y4 :: rest =>
      if b1.isDigit && b2.isDigit && y1.isDigit && y2.isDigit && y3.isDigit && y4.isDigit then
        some (2 + 1 + 4 + (rest.takeWhile (fun c => c ≠ '\n')).length)
      else tryDateTail1 l
  | _ => tryDateTail1 l

/-- The one-digit branch of the first `\d{1,2}` of
`\d{1,2}/\d{1,2}/\d{4}.*`. -/
def tryDateAt1 (l : List Char) : Option Nat :=
  match l with
  | a1 :: '/' :: rest =>
      if a1.isDigit then (tryDateTail rest).map (fun n => 2 + n) else none
  | _ => none

/-- Try `\d{1,2}/\d{1,2}/\d{4}.*` at the current position (`.` does not
cross a newline); returns the length of the match. -/
def tryDateAt (l : List Char) : Option Nat :=
  match l with
  | a1 :: a2 :: '/' :: rest =>
      if a1.isDigit && a2.isDigit then
        match tryDateTail rest with
        | some n => some (3 + n)
        | none => tryDateAt1 l
      else tryDateAt1 l
  | _ => tryDateAt1 l

/-- `re.sub(r'\d{1,2}/\d{1,2}/\d{4}.*', '', name)`: delete every match,
resuming the scan after each deleted match.  `skip` counts characters of a
match still to be consumed without output. -/
def reSubDateAux (skip : Nat) : List Char → List Char
  | [] => []
  | c :: rest =>
      match skip with
      | k + 1 => reSubDateAux k rest
      | 0 =>
          match tryDateAt (c :: rest) with
          | some n => reSubDateAux (n - 1) rest
          | none => c :: reSubDateAux 0 rest

def reSubDate (s : List Char) : List Char := reSubDateAux 0 s

/-- Python `str.replace(pat, sub)` for a nonempty pattern: replace every
non-overlapping occurrence, scanning left to right.  `skip` counts
characters of a replaced occurrence still to be consumed. -/
def replaceAllAux (pat sub : List Char) (skip : Nat) : List Char → List Char
  | [] => []
  | c :: rest =>
      match skip with
      | k + 1 => replaceAllAux pat sub k rest
      | 0 =>
          if pat ≠ [] ∧ pat.isPrefixOf (c :: rest) then
            sub ++ replaceAllAux pat sub (pat.length - 1) rest
          else c :: replaceAllAux pat sub 0 rest

def replaceAll (pat sub s : List Char) : List Char := replaceAllAux pat sub 0 s

/-- `abbreviate_class_name`: non-string input is returned unchanged;
otherwise delete date suffixes, strip, and apply the three substitutions. -/
def abbreviate_class_name (x : Option String) : Option String :=
  match x with
  | none => none
  | some s =>
      let t1 := stripWs (reSubDate s.data)
      let t2 := replaceAll "Homeschool".data "HS".data t1
      let t3 := replaceAll "Flip Side Ninjas".data "FS Ninjas".data t2
      let t4 := replaceAll "(Ages ".data "(".data t3
      some ⟨t4⟩

/-! ### Group-keyword extraction (`parse_student_list`) -/

/-- Python `str.capitalize`: first character uppercased, the rest
lowercased. -/
def pyCapitalize (s : List Char) : List Char :=
  match s with
  | [] => []
  | c :: rest => pyUpper c :: rest.map pyLower

/-- Try `(group\s*[1-3])` at the current position of the already-lowercased
keyword text: the literal `group`, a greedy whitespace run, then a digit 1-3
immediately after the run. -/
def tryGroupAt (l : List Char) : Option (List Char) :=
  if "group".data.isPrefixOf l then
    let rest := l.drop 5
    let ws := rest.takeWhile pyWhite
    match rest.dropWhile pyWhite with
    | d :: _ =>
        if d = '1' || d = '2' || d = '3' then some ("group".data ++ ws ++ [d])
        else none
    | [] => none
  else none

def findGroupSearch : List Char → Option (List Char)
  | [] => none
  | c :: rest =>
      match tryGroupAt (c :: rest) with
      | some m => some m
      | none => findGroupSearch rest

/-- The keyword stored on a roster record:
`re.search(r'(group\s*[1-3])', raw.lower())`, capitalized on a match and
`""` otherwise. -/
def extractGroupKeyword (raw : String) : String :=
  match findGroupSearch (lowerL raw.data) with
  | some m => (⟨pyCapitalize m⟩ : String)
  | none => ""


/-! ### The Yellow rule policy -/

/-- Modelled from the spec's words for comparison (claim C2): the Yellow
matrix keyed on the record's schedule day-bucket — bucket A (Mon/Tue/Fri):
Group 1 with skill at least 2, Group 2 with skill 0, Group 3 with skill at
most 1; bucket B (Wed/Thu): Group 1 with skill at least 5, Group 2 with
skill 3 or at least 7, Group 3 with skill at most 5. -/
def specYellowDayKeyed (r : SheetRow) : Bool :=
  let day := (parse_class_info (some r.className)).1
  let skill := parse_skill_number r.level
  let group := parse_group_number r.keyword
  if day = "Mon" || day = "Tue" || day = "Fri" then
    (group = 1 && skill ≥ 2) || (group = 2 && skill = 0) || (group = 3 && skill ≤ 1)
  else if day = "Wed" || day = "Thu" then
    (group = 1 && skill ≥ 5) || (group = 2 && (skill = 3 || skill ≥ 7)) ||
      (group = 3 && skill ≤ 5)
  else false

/-- A Group-1, skill-2 record in a Wednesday class: the spec's day-keyed
policy denies Yellow on day-bucket B, but the code's advanced-keyed policy
grants it (the class name does not contain `advanced`). -/
def dayPolicyRow : SheetRow := ⟨"Abby", "7", "2", "Group 1", "s2", "Wed 3:40", ""⟩

/-- Counterexample to C2 as stated: a Wednesday (day-bucket B) record that
the day-keyed matrix of the claim rejects is nevertheless given Yellow by
the code, because `apply_highlight_rules` keys the matrix on the substring
`advanced` of the class name, never on the schedule day. -/
theorem C2_counterexample :
    baseFmt dayPolicyRow = some Highlight.yellow ∧
      (parse_class_info (some dayPolicyRow.className)).1 = "Wed" ∧
      specYellowDayKeyed dayPolicyRow = false := by decide

theorem yellowTest_iff (adv : Bool) (g k : Nat) :
    yellowTest adv g k = true ↔
      ((adv = true ∧ ((g = 1 ∧ 5 ≤ k) ∨ (g = 2 ∧ 7 ≤ k) ∨ (g = 3 ∧ k = 3))) ∨
       (adv = false ∧ ((g = 1 ∧ 2 ≤ k) ∨ (g = 2 ∧ k = 0) ∨ (g = 3 ∧ k ≤ 1)))) := by
  cases adv
  · simp [yellowTest]
    tauto
  · simp [yellowTest]
    tauto

/-- Claim C2 amended: the Yellow base category is keyed on the `advanced`
substring of the class name, not on the schedule day-bucket — for a
non-advanced class: Group 1 with skill at least 2, or Group 2 with skill 0,
or Group 3 with skill at most 1; for an advanced class: Group 1 with skill
at least 5, or Group 2 with skill at least 7, or Group 3 with skill exactly
3 — and it is evaluated only on rows with a real student name that the
Skip, Red and Orange rules did not catch. -/
theorem C2_yellow_rule (r : SheetRow) :
    baseFmt r = some Highlight.yellow ↔
      (¬(r.studentName = "" ∨ r.studentName = "open") ∧
        hasIgnoreComment r = false ∧
        ¬(isAdvancedClass r = false ∧ 3 ≤ parse_skill_number r.level) ∧
        parse_group_number r.keyword ≠ 99 ∧
        ((isAdvancedClass r = true ∧
            ((parse_group_number r.keyword = 1 ∧ 5 ≤ parse_skill_number r.level) ∨
             (parse_group_number r.keyword = 2 ∧ 7 ≤ parse_skill_number r.level) ∨
             (parse_group_number r.keyword = 3 ∧ parse_skill_number r.level = 3))) ∨
         (isAdvancedClass r = false ∧
            ((parse_group_number r.keyword = 1 ∧ 2 ≤ parse_skill_number r.level) ∨
             (parse_group_number r.keyword = 2 ∧ parse_skill_number r.level = 0) ∨
             (parse_group_number r.keyword = 3 ∧ parse_skill_number r.level ≤ 1))))) := by
  rw [baseFmt]
  simp only [ge_iff_le]
  by_cases h1 : r.studentName = "" ∨ r.studentName = "open"
  · rw [if_pos h1]; simp [h1]
  · rw [if_neg h1]
    by_cases h2 : hasIgnoreComment r = true
    · rw [if_pos h2]; simp [h1, h2]
    · rw [if_neg h2]
      by_cases h3 : isAdvancedClass r = false ∧ 3 ≤ parse_skill_number r.level
      · rw [if_pos h3]; simp [h1, h2, h3]
      · rw [if_neg h3]
        by_cases h4 : parse_group_number r.keyword = 99
        · rw [if_pos h4]; simp [h1, h2, h3, h4]
        · rw [if_neg h4]
          by_cases h5 : yellowTest (isAdvancedClass r) (parse_group_number r.keyword)
              (parse_skill_number r.level) = true
          · rw [if_pos h5]
            rw [yellowTest_iff] at h5
            simp [h1, h2, h3, h4, h5]
          · rw [if_neg h5]
            rw [yellowTest_iff] at h5
            simp [h1, h2, h3, h4, h5]


/-! ### The keyword enumeration -/

/-- Counterexample to C7 as stated: a keyword cell reading `group2` is
stored as `Group2` — the matched spacing (here none) is preserved by
`capitalize`, so the stored keyword is not one of the four enumerated
values. -/
theorem C7_counterexample :
    extractGroupKeyword "group2" = "Group2" ∧
      ("Group2" : String) ∉ (["Group 1", "Group 2", "Group 3", ""] : List String) := by
  decide

theorem tryGroupAt_shape {l m : List Char} (h : tryGroupAt l = some m) :
    ∃ ws d, (∀ c ∈ ws, pyWhite c = true) ∧ (d = '1' ∨ d = '2' ∨ d = '3') ∧
      m = "group".data ++ ws ++ [d] := by
  rw [tryGroupAt] at h
  by_cases hpre : "group".data.isPrefixOf l
  · rw [if_pos hpre] at h
    dsimp only at h
    rcases hdrop : (l.drop 5).dropWhile pyWhite with _ | ⟨d, t⟩
    · rw [hdrop] at h; exact absurd h (by simp)
    · rw [hdrop] at h
      dsimp only at h
      by_cases hd : d = '1' || d = '2' || d = '3'
      · rw [if_pos hd] at h
        simp only [Option.some.injEq] at h
        refine ⟨(l.drop 5).takeWhile pyWhite, d, ?_, ?_, ?_⟩
        · intro c hc; exact List.mem_takeWhile_imp hc
        · have hd2 : (d = '1' ∨ d = '2') ∨ d = '3' := by simpa using hd
          tauto
        · rw [← h]
      · rw [if_neg hd] at h; exact absurd h (by simp)
  · rw [if_neg hpre] at h; exact absurd h (by simp)

theorem findGroupSearch_shape {s m : List Char} (h : findGroupSearch s = some m) :
    ∃ ws d, (∀ c ∈ ws, pyWhite c = true) ∧ (d = '1' ∨ d = '2' ∨ d = '3') ∧
      m = "group".data ++ ws ++ [d] := by
  induction s with
  | nil => rw [findGroupSearch] at h; exact absurd h (by simp)
  | cons c rest ih =>
    rw [findGroupSearch] at h
    rcases htry : tryGroupAt (c :: rest) with _ | ⟨m2⟩
    · rw [htry] at h; exact ih h
    · rw [htry] at h
      simp only [Option.some.injEq] at h
      rw [← h]
      exact tryGroupAt_shape htry

theorem pyLower_digit {d : Char} (hd : d = '1' ∨ d = '2' ∨ d = '3') :
    pyLower d = d := by
  rcases hd with h | h | h <;> rw [h] <;> rfl

/-- Claim C7 amended: the stored keyword is either the empty string or the
capitalized match of `group\s*[1-3]` — the literal `Group` followed by the
original whitespace run of the cell and the digit; the spacing of the match
is preserved, not normalized, so the canonical `Group N` form arises exactly
when the match used a single space (as in the spec examples). -/
theorem C7_keyword_enumeration :
    (∀ raw : String,
      extractGroupKeyword raw = "" ∨
        ∃ ws d, (∀ c ∈ ws, pyWhite c = true) ∧ (d = '1' ∨ d = '2' ∨ d = '3') ∧
          extractGroupKeyword raw =
            (⟨'G' :: 'r' :: 'o' :: 'u' :: 'p' :: (ws ++ [d])⟩ : String)) ∧
    extractGroupKeyword "Group 2, needs focus" = "Group 2" ∧
    extractGroupKeyword "VIP" = "" := by
  refine ⟨?_, by decide, by decide⟩
  intro raw
  rw [extractGroupKeyword]
  rcases hfind : findGroupSearch (lowerL raw.data) with _ | ⟨m⟩
  · left; rfl
  · right
    rcases findGroupSearch_shape hfind with ⟨ws, d, hws, hd, hm⟩
    refine ⟨ws, d, hws, hd, ?_⟩
    dsimp only
    congr 1
    rw [hm]
    show pyCapitalize ('g' :: ('r' :: 'o' :: 'u' :: 'p' :: []) ++ ws ++ [d]) =
      'G' :: 'r' :: 'o' :: 'u' :: 'p' :: (ws ++ [d])
    rw [pyCapitalize.eq_def]
    have hwsmap : ws.map pyLower = ws := by
      have h0 : ws.map pyLower = ws.map id :=
        List.map_congr_left (fun c hc => pyLower_of_white (hws c hc))
      simpa using h0
    simp only [List.cons_append, List.nil_append, List.map_append, List.map_cons,
      List.map_nil, hwsmap, pyLower_digit hd]
    rfl


/-! ### The dashboard layout builder (7-row padded group blocks) -/

/-- The synthetic placeholder row: `Student Name` is `"open"`, every other
column blank. -/
def openRow : SheetRow := ⟨"open", "", "", "", "", "", ""⟩

/-- The blank separator row appended after every group block. -/
def spacerRow : SheetRow := ⟨"", "", "", "", "", "", ""⟩

/-- `add_group_block`: pad the group to seven rows with `"open"` placeholder
rows placed before the real rows, record the block's border range, and
append a spacer row.  (`7 - count` in `Nat` is the source's
`max(0, 7 - count)`.) -/
def add_group_block (acc : List SheetRow × List (Nat × Nat)) (grp : List SheetRow) :
    List SheetRow × List (Nat × Nat) :=
  let block := List.replicate (7 - grp.length) openRow ++ grp
  let start := acc.1.length
  (acc.1 ++ block ++ [spacerRow], acc.2 ++ [(start, start + block.length - 1)])

/-- The per-time-slot stack of `update_google_sheet_advanced`: the Group 1,
Group 2 and Group 3 blocks followed by the ungrouped remainder. -/
def buildTimeSlot (g1 g2 g3 other : List SheetRow) : List SheetRow × List (Nat × Nat) :=
  let s1 := add_group_block ([], []) g1
  let s2 := add_group_block s1 g2
  let s3 := add_group_block s2 g3
  (s3.1 ++ other, s3.2)

/-- Claim C10: each group block of a time slot with `n` real student rows is
padded with exactly `max 0 (7 - n)` placeholder rows whose name is `"open"`
and whose other fields are empty, and every placeholder sits above (before)
every real row of its block, so the real students occupy the bottom of the
block. -/
theorem C10_placeholder_padding (g1 g2 g3 other : List SheetRow) :
    (buildTimeSlot g1 g2 g3 other).1 =
      (List.replicate (max 0 (7 - g1.length)) openRow ++ g1) ++ [spacerRow] ++
      ((List.replicate (max 0 (7 - g2.length)) openRow ++ g2) ++ [spacerRow] ++
      ((List.replicate (max 0 (7 - g3.length)) openRow ++ g3) ++ [spacerRow] ++ other)) ∧
    openRow.studentName = "open" ∧ openRow.age = "" ∧ openRow.attendNum = "" ∧
    openRow.keyword = "" ∧ openRow.level = "" ∧ openRow.className = "" ∧
    openRow.rsComment = "" := by
  refine ⟨?_, rfl, rfl, rfl, rfl, rfl, rfl, rfl⟩
  show ([] : List SheetRow) ++ (List.replicate (7 - g1.length) openRow ++ g1) ++ [spacerRow] ++
      (List.replicate (7 - g2.length) openRow ++ g2) ++ [spacerRow] ++
      (List.replicate (7 - g3.length) openRow ++ g3) ++ [spacerRow] ++ other = _
  simp [List.append_assoc, Nat.max_eq_right (Nat.zero_le _)]


/-! ### Cohort sorting (`get_sorted_group`) -/

/-- The three-column sort key of `get_sorted_group`:
`(sort_skill, sort_att, sort_age)` ascending. -/
def sortKey (r : SheetRow) : Nat × Int × Nat :=
  (parse_skill_number r.level, parse_attendance r.attendNum, parse_age r.age)

/-- Lexicographic comparison of three-column sort keys. -/
def keyLE (a b : Nat × Int × Nat) : Bool :=
  a.1 < b.1 || (a.1 == b.1 &&
    (a.2.1 < b.2.1 || (a.2.1 == b.2.1 && a.2.2 ≤ b.2.2)))

/-- Stable insertion: a new row goes before the first row whose key is not
smaller, so rows inserted earlier keep their relative order on ties. -/
def insertByKey (r : SheetRow) : List SheetRow → List SheetRow
  | [] => [r]
  | x :: xs => if keyLE (sortKey r) (sortKey x) then r :: x :: xs else x :: insertByKey r xs

/-- The stable multi-column sort of `DataFrame.sort_values` on
`['sort_skill', 'sort_att', 'sort_age']` (pandas multi-column sorting is a
stable lexicographic sort), as a stable insertion sort. -/
def sortByKey : List SheetRow → List SheetRow
  | [] => []
  | x :: xs => insertByKey x (sortByKey xs)

/-- `get_sorted_group`: the rows of the time slot whose keyword parses to
the given group number, sorted by `(skill, attendance, age)` ascending. -/
def get_sorted_group (recs : List SheetRow) (g : Nat) : List SheetRow :=
  sortByKey (recs.filter fun r => parse_group_number r.keyword == g)

/-- The full per-time-slot order built by `update_google_sheet_advanced`:
the sorted Group 1, 2 and 3 blocks, then the remaining rows (those whose
group number is none of 1, 2, 3) in their original order. -/
def blockOrder (recs : List SheetRow) : List SheetRow :=
  get_sorted_group recs 1 ++ get_sorted_group recs 2 ++ get_sorted_group recs 3 ++
    recs.filter fun r =>
      !(parse_group_number r.keyword == 1) && !(parse_group_number r.keyword == 2) &&
        !(parse_group_number r.keyword == 3)

/-- The four-rank tuple of the claimed canonical waiting-list order. -/
def rank4 (r : SheetRow) : Nat × Nat × Int × Nat :=
  (parse_group_number r.keyword, parse_skill_number r.level,
    parse_attendance r.attendNum, parse_age r.age)

/-- Lexicographic order on the four-rank tuple, as a proposition. -/
def rank4Le (a b : Nat × Nat × Int × Nat) : Prop :=
  a.1 < b.1 ∨ (a.1 = b.1 ∧ (a.2.1 < b.2.1 ∨ (a.2.1 = b.2.1 ∧
    (a.2.2.1 < b.2.2.1 ∨ (a.2.2.1 = b.2.2.1 ∧ a.2.2.2 ≤ b.2.2.2)))))

instance rank4LeDecidable (a b : Nat × Nat × Int × Nat) : Decidable (rank4Le a b) := by
  rw [rank4Le]; infer_instance

/-- Two ungrouped (blank-keyword) rows in skill order s5 then s2. -/
def ungroupedHigh : SheetRow := ⟨"Zed", "9", "1", "", "s5", "Mon 3:40", ""⟩

def ungroupedLow : SheetRow := ⟨"Amy", "8", "1", "", "s2", "Mon 3:40", ""⟩

/-- Counterexample to C5 as stated: ungrouped rows (group rank 99) are
appended in original input order and never sorted, so a time slot holding an
s5 ungrouped row before an s2 ungrouped row is not in the claimed
`(groupRank, skillRank, attendanceRank, ageRank)` ascending order. -/
theorem C5_counterexample :
    blockOrder [ungroupedHigh, ungroupedLow] = [ungroupedHigh, ungroupedLow] ∧
      ¬ rank4Le (rank4 ungroupedHigh) (rank4 ungroupedLow) := by
  constructor
  · decide
  · decide

theorem keyLE_refl (a : Nat × Int × Nat) : keyLE a a = true := by
  simp [keyLE]

theorem keyLE_total (a b : Nat × Int × Nat) (h : ¬ keyLE a b = true) : keyLE b a = true := by
  simp [keyLE] at h ⊢
  omega

theorem keyLE_trans {a b c : Nat × Int × Nat} (h1 : keyLE a b = true)
    (h2 : keyLE b c = true) : keyLE a c = true := by
  simp [keyLE] at h1 h2 ⊢
  omega

theorem mem_insertByKey {r y : SheetRow} {l : List SheetRow}
    (h : y ∈ insertByKey r l) : y = r ∨ y ∈ l := by
  induction l with
  | nil => rw [insertByKey] at h; simpa using h
  | cons x xs ih =>
    rw [insertByKey] at h
    split_ifs at h
    · rcases List.mem_cons.1 h with h' | h'
      · exact Or.inl h'
      · exact Or.inr h'
    · rcases List.mem_cons.1 h with h' | h'
      · exact Or.inr (h' ▸ List.mem_cons_self x xs)
      · rcases ih h' with h'' | h''
        · exact Or.inl h''
        · exact Or.inr (List.mem_cons_of_mem x h'')

/-- The pairwise sortedness invariant of the three-column sort. -/
def SortedKey (l : List SheetRow) : Prop :=
  List.Pairwise (fun x y => keyLE (sortKey x) (sortKey y) = true) l

theorem insertByKey_sorted {r : SheetRow} {l : List SheetRow} (h : SortedKey l) :
    SortedKey (insertByKey r l) := by
  induction l with
  | nil => simp [insertByKey, SortedKey]
  | cons x xs ih =>
    rw [insertByKey]
    split_ifs with hle
    · rw [SortedKey, List.pairwise_cons]
      refine ⟨?_, h⟩
      intro y hy
      rcases List.mem_cons.1 hy with h' | h'
      · rw [h']; exact hle
      · exact keyLE_trans hle ((List.pairwise_cons.1 h).1 y h')
    · rw [SortedKey, List.pairwise_cons]
      constructor
      · intro y hy
        rcases mem_insertByKey hy with h' | h'
        · rw [h']; exact keyLE_total _ _ hle
        · exact (List.pairwise_cons.1 h).1 y h'
      · exact ih (List.pairwise_cons.1 h).2

theorem sortByKey_sorted (l : List SheetRow) : SortedKey (sortByKey l) := by
  induction l with
  | nil => simp [sortByKey, SortedKey]
  | cons x xs ih => rw [sortByKey]; exact insertByKey_sorted ih

theorem sortByKey_of_sorted {l : List SheetRow} (h : SortedKey l) : sortByKey l = l := by
  induction l with
  | nil => rfl
  | cons x xs ih =>
    rw [sortByKey, ih (List.pairwise_cons.1 h).2]
    cases xs with
    | nil => rfl
    | cons y ys =>
      rw [insertByKey, if_pos ((List.pairwise_cons.1 h).1 y (List.mem_cons_self y ys))]

theorem sortByKey_idem (l : List SheetRow) : sortByKey (sortByKey l) = sortByKey l :=
  sortByKey_of_sorted (sortByKey_sorted l)

theorem insertByKey_filter_key (r : SheetRow) (l : List SheetRow) (k : Nat × Int × Nat) :
    (insertByKey r l).filter (fun x => sortKey x == k) =
      (if sortKey r == k then r :: l.filter (fun x => sortKey x == k)
       else l.filter (fun x => sortKey x == k)) := by
  induction l with
  | nil =>
    rw [insertByKey]
    cases hrk : (sortKey r == k) with
    | true => simp [List.filter, hrk]
    | false => simp [List.filter, hrk]
  | cons x xs ih =>
    rw [insertByKey]
    by_cases hle : keyLE (sortKey r) (sortKey x) = true
    · rw [if_pos hle]
      cases hrk : (sortKey r == k) with
      | true => simp [List.filter_cons, hrk]
      | false => simp [List.filter_cons, hrk]
    · rw [if_neg hle, List.filter_cons]
      cases hxk : (sortKey x == k) with
      | true =>
        have hrk : (sortKey r == k) = false := by
          cases hrk2 : (sortKey r == k) with
          | false => rfl
          | true =>
            exfalso
            apply hle
            have h1 : sortKey x = k := by simpa using hxk
            have h2 : sortKey r = k := by simpa using hrk2
            rw [h1, h2]
            exact keyLE_refl k
        rw [ih, hrk]
        simp [List.filter_cons, hxk, hrk]
      | false =>
        rw [ih]
        simp [List.filter_cons, hxk]

theorem sortByKey_filter_key (l : List SheetRow) (k : Nat × Int × Nat) :
    (sortByKey l).filter (fun x => sortKey x == k) =
      l.filter (fun x => sortKey x == k) := by
  induction l with
  | nil => rfl
  | cons x xs ih =>
    rw [sortByKey, insertByKey_filter_key, List.filter_cons]
    split_ifs with hxk
    · rw [ih]
    · rw [ih]


theorem mem_sortByKey {y : SheetRow} {l : List SheetRow} (h : y ∈ sortByKey l) : y ∈ l := by
  induction l with
  | nil => rw [sortByKey] at h; exact h
  | cons x xs ih =>
    rw [sortByKey] at h
    rcases mem_insertByKey h with h' | h'
    · exact h' ▸ List.mem_cons_self x xs
    · exact List.mem_cons_of_mem x (ih h')

theorem mem_get_sorted_group {y : SheetRow} {recs : List SheetRow} {g : Nat}
    (h : y ∈ get_sorted_group recs g) : parse_group_number y.keyword = g := by
  rw [get_sorted_group] at h
  have := (List.mem_filter.1 (mem_sortByKey h)).2
  simpa using this

theorem keyLE_rank4 {x y : SheetRow}
    (hg : parse_group_number x.keyword = parse_group_number y.keyword)
    (hk : keyLE (sortKey x) (sortKey y) = true) :
    rank4Le (rank4 x) (rank4 y) := by
  simp only [keyLE, sortKey, Bool.or_eq_true, Bool.and_eq_true, decide_eq_true_eq,
    beq_iff_eq] at hk
  simp only [rank4Le, rank4]
  omega

theorem rank4_of_lt_group {x y : SheetRow}
    (hg : parse_group_number x.keyword < parse_group_number y.keyword) :
    rank4Le (rank4 x) (rank4 y) := by
  simp only [rank4Le, rank4]
  omega

theorem sorted_group_pairwise (recs : List SheetRow) (g : Nat) :
    List.Pairwise (fun a b => rank4Le (rank4 a) (rank4 b)) (get_sorted_group recs g) := by
  have hp : List.Pairwise (fun x y => keyLE (sortKey x) (sortKey y) = true)
      (get_sorted_group recs g) := sortByKey_sorted _
  refine List.Pairwise.imp_of_mem ?_ hp
  intro a b ha hb hk
  exact keyLE_rank4 ((mem_get_sorted_group ha).trans (mem_get_sorted_group hb).symm) hk

theorem filter_group_of_all {l : List SheetRow} {h : Nat}
    (hall : ∀ y ∈ l, parse_group_number y.keyword = h) (g : Nat) :
    l.filter (fun r => parse_group_number r.keyword == g) = if h = g then l else [] := by
  split_ifs with hg
  · apply List.filter_eq_self.2
    intro y hy
    simp [hall y hy, hg]
  · apply List.filter_eq_nil_iff.2
    intro y hy
    simp [hall y hy, hg]

theorem blockOrder_filter_other (recs : List SheetRow) :
    (blockOrder recs).filter (fun r =>
        !(parse_group_number r.keyword == 1) && !(parse_group_number r.keyword == 2) &&
          !(parse_group_number r.keyword == 3)) =
      recs.filter (fun r =>
        !(parse_group_number r.keyword == 1) && !(parse_group_number r.keyword == 2) &&
          !(parse_group_number r.keyword == 3)) := by
  rw [blockOrder, List.filter_append, List.filter_append, List.filter_append]
  have h1 : ∀ g, g = 1 ∨ g = 2 ∨ g = 3 →
      (get_sorted_group recs g).filter (fun r =>
        !(parse_group_number r.keyword == 1) && !(parse_group_number r.keyword == 2) &&
          !(parse_group_number r.keyword == 3)) = [] := by
    intro g hg
    apply List.filter_eq_nil_iff.2
    intro y hy
    have := mem_get_sorted_group hy
    rcases hg with h | h | h <;> simp [this, h]
  rw [h1 1 (by tauto), h1 2 (by tauto), h1 3 (by tauto)]
  simp only [List.nil_append]
  rw [List.filter_filter]
  apply List.filter_congr
  intro y hy
  exact Bool.and_self _

theorem blockOrder_filter_group (recs : List SheetRow) (g : Nat)
    (hg : g = 1 ∨ g = 2 ∨ g = 3) :
    (blockOrder recs).filter (fun r => parse_group_number r.keyword == g) =
      get_sorted_group recs g := by
  rw [blockOrder, List.filter_append, List.filter_append, List.filter_append]
  have hother : (recs.filter (fun r =>
      !(parse_group_number r.keyword == 1) && !(parse_group_number r.keyword == 2) &&
        !(parse_group_number r.keyword == 3))).filter
        (fun r => parse_group_number r.keyword == g) = [] := by
    apply List.filter_eq_nil_iff.2
    intro y hy
    have := (List.mem_filter.1 hy).2
    simp only [Bool.and_eq_true, Bool.not_eq_true', beq_eq_false_iff_ne] at this
    rcases hg with h | h | h <;> simp [h] <;> omega
  have hblk : ∀ h2 : Nat, (h2 = 1 ∨ h2 = 2 ∨ h2 = 3) →
      (get_sorted_group recs h2).filter (fun r => parse_group_number r.keyword == g) =
        if h2 = g then get_sorted_group recs h2 else [] :=
    fun h2 _ => filter_group_of_all (fun y hy => mem_get_sorted_group hy) g
  rw [hblk 1 (by tauto), hblk 2 (by tauto), hblk 3 (by tauto), hother]
  rcases hg with h | h | h <;> subst h <;> simp

theorem get_sorted_group_blockOrder (recs : List SheetRow) (g : Nat)
    (hg : g = 1 ∨ g = 2 ∨ g = 3) :
    get_sorted_group (blockOrder recs) g = get_sorted_group recs g := by
  rw [get_sorted_group, blockOrder_filter_group recs g hg]
  exact sortByKey_of_sorted (sortByKey_sorted _)

/-- Claim C5 amended: within a time slot the Group 1, Group 2 and Group 3
rows are ordered by `(groupRank, skillRank, attendanceRank, ageRank)`
ascending under a stable sort — rows tied on all sort keys keep their
original input order (the filter-by-key characterization below) — and
re-running the block ordering on an already-ordered block is a no-op; but
ungrouped rows (group rank 99) are appended after the grouped blocks in
their original input order without being key-sorted. -/
theorem C5_cohort_ordering :
    (∀ recs : List SheetRow,
      List.Pairwise (fun a b => rank4Le (rank4 a) (rank4 b))
        (get_sorted_group recs 1 ++ get_sorted_group recs 2 ++ get_sorted_group recs 3)) ∧
    (∀ (recs : List SheetRow) (g : Nat) (k : Nat × Int × Nat),
      (get_sorted_group recs g).filter (fun x => sortKey x == k) =
        (recs.filter fun r => parse_group_number r.keyword == g).filter
          (fun x => sortKey x == k)) ∧
    (∀ recs : List SheetRow, blockOrder (blockOrder recs) = blockOrder recs) := by
  refine ⟨?_, ?_, ?_⟩
  · intro recs
    rw [List.pairwise_append]
    refine ⟨?_, sorted_group_pairwise recs 3, ?_⟩
    · rw [List.pairwise_append]
      refine ⟨sorted_group_pairwise recs 1, sorted_group_pairwise recs 2, ?_⟩
      intro a ha b hb
      apply rank4_of_lt_group
      rw [mem_get_sorted_group ha, mem_get_sorted_group hb]
      omega
    · intro a ha b hb
      apply rank4_of_lt_group
      rw [mem_get_sorted_group hb]
      rcases List.mem_append.1 ha with h | h
      · rw [mem_get_sorted_group h]; omega
      · rw [mem_get_sorted_group h]; omega
  · intro recs g k
    rw [get_sorted_group, sortByKey_filter_key]
  · intro recs
    conv_lhs => rw [blockOrder]
    rw [get_sorted_group_blockOrder recs 1 (by tauto),
      get_sorted_group_blockOrder recs 2 (by tauto),
      get_sorted_group_blockOrder recs 3 (by tauto),
      blockOrder_filter_other recs]
    rw [blockOrder]


/-! ### The Green move-up rule -/

/-- Spec-level Green candidate of cohort `g` at index `i`: an in-range row
of the group whose comment carries no ignore tag and whose base category is
`None`. -/
def greenCand (recs : List SheetRow) (g i : Nat) : Prop :=
  i < recs.length ∧ parse_group_number (recs.getD i default).keyword = g ∧
    hasIgnoreComment (recs.getD i default) = false ∧
    (recs.map baseFmt).getD i none = none

instance greenCandDecidable (recs : List SheetRow) (g i : Nat) :
    Decidable (greenCand recs g i) := by
  rw [greenCand]; infer_instance

theorem mem_groupIndices {recs : List SheetRow} {g i : Nat} :
    i ∈ groupIndices recs g ↔
      i < recs.length ∧ parse_group_number (recs.getD i default).keyword = g := by
  rw [groupIndices, List.mem_filter, List.mem_range]
  simp

theorem groupIndices_pairwise (recs : List SheetRow) (g : Nat) :
    List.Pairwise (fun a b => a < b) (groupIndices recs g) :=
  List.Pairwise.filter _ (List.pairwise_lt_range recs.length)

theorem find?_reverse_max {idxs : List Nat} {p : Nat → Bool} {j : Nat}
    (hsort : List.Pairwise (fun a b => a < b) idxs)
    (hfind : idxs.reverse.find? p = some j) :
    p j = true ∧ j ∈ idxs ∧ ∀ k ∈ idxs, p k = true → k ≤ j := by
  have hp := List.find?_some hfind
  have hmem : j ∈ idxs := List.mem_reverse.1 (List.mem_of_find?_eq_some hfind)
  refine ⟨hp, hmem, ?_⟩
  rcases List.find?_eq_some.1 hfind with ⟨hpj, as, bs, hsplit, hfail⟩
  have hidxs : idxs = bs.reverse ++ j :: as.reverse := by
    have h2 := congrArg List.reverse hsplit
    rw [List.reverse_reverse] at h2
    rw [h2, List.reverse_append, List.reverse_cons, List.append_assoc]
    simp
  intro k hk hpk
  rw [hidxs] at hk
  rw [hidxs] at hsort
  rcases List.mem_append.1 hk with hk1 | hk2
  · have := (List.pairwise_append.1 hsort).2.2 k hk1 j (List.mem_cons_self _ _)
    omega
  · rcases List.mem_cons.1 hk2 with hk3 | hk4
    · omega
    · exfalso
      have hf := hfail k (List.mem_reverse.1 hk4)
      rw [hpk] at hf
      exact absurd hf (by decide)

theorem find?_congr_mem {l : List α} {p q : α → Bool} (h : ∀ x ∈ l, p x = q x) :
    l.find? p = l.find? q := by
  induction l with
  | nil => rfl
  | cons x xs ih =>
    rw [List.find?, List.find?, h x (List.mem_cons_self x xs)]
    cases q x with
    | true => rfl
    | false => exact ih fun y hy => h y (List.mem_cons_of_mem x hy)

theorem getD_mem {recs : List SheetRow} {i : Nat} (h : i < recs.length) :
    recs.getD i default ∈ recs := by
  rw [List.getD_eq_getElem?_getD, List.getElem?_eq_getElem h]
  exact List.getElem_mem h

theorem apply_green_getD_isSome {recs : List SheetRow} {fmts : List (Option Highlight)}
    {idxs : List Nat} {i : Nat} (h : (fmts.getD i none).isSome) :
    (apply_green_recursive recs fmts idxs).getD i none = fmts.getD i none := by
  rw [apply_green_recursive]
  rcases hfind : idxs.reverse.find? (greenCandidate recs fmts) with _ | ⟨j⟩
  · rfl
  · have hj := List.find?_some hfind
    rw [greenCandidate] at hj
    simp only [Bool.and_eq_true, Option.isNone_iff_eq_none] at hj
    have hne : j ≠ i := by
      intro hcontra
      rw [hcontra] at hj
      rw [hj.2] at h
      exact absurd h (by decide)
    simp only [List.getD_eq_getElem?_getD]
    rw [List.getElem?_set_ne hne]

theorem apply_green_getD_notMem {recs : List SheetRow} {fmts : List (Option Highlight)}
    {idxs : List Nat} {i : Nat} (h : i ∉ idxs) :
    (apply_green_recursive recs fmts idxs).getD i none = fmts.getD i none := by
  rw [apply_green_recursive]
  rcases hfind : idxs.reverse.find? (greenCandidate recs fmts) with _ | ⟨j⟩
  · rfl
  · have hj : j ∈ idxs := List.mem_reverse.1 (List.mem_of_find?_eq_some hfind)
    have hne : j ≠ i := fun hcontra => h (hcontra ▸ hj)
    simp only [List.getD_eq_getElem?_getD]
    rw [List.getElem?_set_ne hne]

theorem greenCandidate_base_iff {recs : List SheetRow}
    (hOpen : ∀ r ∈ recs, parse_group_number r.keyword = 1 ∨ parse_group_number r.keyword = 2 →
      r.studentName ≠ "open")
    {g i : Nat} (hg : g = 1 ∨ g = 2) (hlen : i < recs.length)
    (hgrp : parse_group_number (recs.getD i default).keyword = g) :
    greenCandidate recs (recs.map baseFmt) i = true ↔ greenCand recs g i := by
  have hopen : (recs.getD i default).studentName ≠ "open" :=
    hOpen (recs.getD i default) (getD_mem hlen) (by omega)
  rw [greenCandidate, greenCand]
  simp only [Bool.and_eq_true, Bool.not_eq_true', Option.isNone_iff_eq_none,
    beq_eq_false_iff_ne]
  constructor
  · rintro ⟨⟨h1, _⟩, h3⟩
    exact ⟨hlen, hgrp, h1, h3⟩
  · rintro ⟨_, _, h3, h4⟩
    exact ⟨⟨h3, hopen⟩, h4⟩


theorem greenCandidate_congr {recs : List SheetRow} {fmts fmts' : List (Option Highlight)}
    {i : Nat} (h : fmts.getD i none = fmts'.getD i none) :
    greenCandidate recs fmts i = greenCandidate recs fmts' i := by
  rw [greenCandidate, greenCandidate, h]

theorem apply_green_getD_target {recs : List SheetRow} {fmts : List (Option Highlight)}
    {idxs : List Nat} {j : Nat} (hlen : j < fmts.length)
    (hfind : idxs.reverse.find? (greenCandidate recs fmts) = some j) :
    (apply_green_recursive recs fmts idxs).getD j none = some Highlight.green := by
  rw [apply_green_recursive, hfind]
  simp only [List.getD_eq_getElem?_getD]
  rw [List.getElem?_set_self hlen]
  rfl

theorem apply_green_getD_ne {recs : List SheetRow} {fmts : List (Option Highlight)}
    {idxs : List Nat} {i j : Nat}
    (hfind : idxs.reverse.find? (greenCandidate recs fmts) = some j) (hne : i ≠ j) :
    (apply_green_recursive recs fmts idxs).getD i none = fmts.getD i none := by
  rw [apply_green_recursive, hfind]
  simp only [List.getD_eq_getElem?_getD]
  rw [List.getElem?_set_ne (Ne.symm hne)]

theorem apply_green_of_none {recs : List SheetRow} {fmts : List (Option Highlight)}
    {idxs : List Nat}
    (hfind : idxs.reverse.find? (greenCandidate recs fmts) = none) :
    apply_green_recursive recs fmts idxs = fmts := by
  rw [apply_green_recursive, hfind]

/-- Claim C1: for every block handed to `apply_highlight_rules` (whose
Group 1/2 rows, as built by the layout stage, are never named `"open"`) and
for each of Group 1 and Group 2 separately: a row that already has a base
category keeps it; rows outside Groups 1 and 2 are untouched by the Green
pass; when the cohort has no candidate (no non-ignored row with base
category `None`) every row of the cohort keeps its base value and no Green
appears; when it has candidates, exactly the last candidate in block order
receives Green and every other row of the cohort keeps its base value. -/
theorem C1_green_move_up (recs : List SheetRow)
    (hOpen : ∀ r ∈ recs,
      parse_group_number r.keyword = 1 ∨ parse_group_number r.keyword = 2 →
        r.studentName ≠ "open") :
    (∀ i, i < recs.length → ((recs.map baseFmt).getD i none).isSome →
      (apply_highlight_rules recs).getD i none = (recs.map baseFmt).getD i none) ∧
    (∀ j, j < recs.length → parse_group_number (recs.getD j default).keyword ≠ 1 →
      parse_group_number (recs.getD j default).keyword ≠ 2 →
      (apply_highlight_rules recs).getD j none = (recs.map baseFmt).getD j none) ∧
    (∀ g, g = 1 ∨ g = 2 →
      ((∀ i, ¬ greenCand recs g i) →
        ∀ j, j < recs.length → parse_group_number (recs.getD j default).keyword = g →
          (apply_highlight_rules recs).getD j none = (recs.map baseFmt).getD j none) ∧
      ((∃ i, greenCand recs g i) →
        ∃ i, greenCand recs g i ∧ (∀ k, greenCand recs g k → k ≤ i) ∧
          (apply_highlight_rules recs).getD i none = some Highlight.green ∧
          ∀ j, j < recs.length →
            parse_group_number (recs.getD j default).keyword = g → j ≠ i →
            (apply_highlight_rules recs).getD j none = (recs.map baseFmt).getD j none)) := by
  have hfin : apply_highlight_rules recs =
      apply_green_recursive recs
        (apply_green_recursive recs (recs.map baseFmt) (groupIndices recs 1))
        (groupIndices recs 2) := rfl
  set base := recs.map baseFmt with hbase
  set f1 := apply_green_recursive recs base (groupIndices recs 1) with hf1
  have hlen1 : base.length = recs.length := List.length_map recs baseFmt
  have hfact1 : ∀ i ∈ groupIndices recs 2, f1.getD i none = base.getD i none := by
    intro i hi
    apply apply_green_getD_notMem
    intro hmem
    have h1 := (mem_groupIndices.1 hmem).2
    have h2 := (mem_groupIndices.1 hi).2
    omega
  have hfact2 : ∀ x ∈ (groupIndices recs 2).reverse,
      greenCandidate recs f1 x = greenCandidate recs base x := by
    intro x hx
    exact greenCandidate_congr (hfact1 x (List.mem_reverse.1 hx))
  have hfact3 : (groupIndices recs 2).reverse.find? (greenCandidate recs f1) =
      (groupIndices recs 2).reverse.find? (greenCandidate recs base) :=
    find?_congr_mem hfact2
  refine ⟨?_, ?_, ?_⟩
  · intro i hi hsome
    have h1 : f1.getD i none = base.getD i none := apply_green_getD_isSome hsome
    rw [hfin]
    rw [apply_green_getD_isSome (h1 ▸ hsome)]
    exact h1
  · intro j hj hg1 hg2
    have hn1 : j ∉ groupIndices recs 1 := fun hm => hg1 (mem_groupIndices.1 hm).2
    have hn2 : j ∉ groupIndices recs 2 := fun hm => hg2 (mem_groupIndices.1 hm).2
    rw [hfin, apply_green_getD_notMem hn2]
    exact apply_green_getD_notMem hn1
  · intro g hg
    rcases hg with hg | hg
    · subst hg
      constructor
      · intro hnone j hj hgrp
        rcases hfind1 : (groupIndices recs 1).reverse.find? (greenCandidate recs base)
          with _ | ⟨t⟩
        · have hn2 : j ∉ groupIndices recs 2 := by
            intro hm; have := (mem_groupIndices.1 hm).2; omega
          rw [hfin, apply_green_getD_notMem hn2, hf1, apply_green_of_none hfind1]
        · exfalso
          rcases find?_reverse_max (groupIndices_pairwise recs 1) hfind1 with ⟨hpt, htm, _⟩
          rcases mem_groupIndices.1 htm with ⟨htl, htg⟩
          exact hnone t ((greenCandidate_base_iff hOpen (by omega) htl htg).1 hpt)
      · rintro ⟨i0, hi0⟩
        rcases hfind1 : (groupIndices recs 1).reverse.find? (greenCandidate recs base)
          with _ | ⟨t⟩
        · exfalso
          rcases hi0 with ⟨hl0, hg0, hig0, hb0⟩
          have hm0 : i0 ∈ (groupIndices recs 1).reverse :=
            List.mem_reverse.2 (mem_groupIndices.2 ⟨hl0, hg0⟩)
          have := List.find?_eq_none.1 hfind1 i0 hm0
          exact this ((greenCandidate_base_iff hOpen (by omega) hl0 hg0).2
            ⟨hl0, hg0, hig0, hb0⟩)
        · rcases find?_reverse_max (groupIndices_pairwise recs 1) hfind1 with ⟨hpt, htm, hmax⟩
          rcases mem_groupIndices.1 htm with ⟨htl, htg⟩
          have hcand : greenCand recs 1 t :=
            (greenCandidate_base_iff hOpen (by omega) htl htg).1 hpt
          refine ⟨t, hcand, ?_, ?_, ?_⟩
          · intro k hk
            rcases hk with ⟨hkl, hkg, hkig, hkb⟩
            exact hmax k (mem_groupIndices.2 ⟨hkl, hkg⟩)
              ((greenCandidate_base_iff hOpen (by omega) hkl hkg).2 ⟨hkl, hkg, hkig, hkb⟩)
          · have hn2 : t ∉ groupIndices recs 2 := by
              intro hm; have := (mem_groupIndices.1 hm).2; omega
            rw [hfin, apply_green_getD_notMem hn2, hf1]
            exact apply_green_getD_target (by omega) hfind1
          · intro j hj hgrp hne
            have hn2 : j ∉ groupIndices recs 2 := by
              intro hm; have := (mem_groupIndices.1 hm).2; omega
            rw [hfin, apply_green_getD_notMem hn2, hf1]
            exact apply_green_getD_ne hfind1 hne
    · subst hg
      constructor
      · intro hnone j hj hgrp
        rcases hfind2 : (groupIndices recs 2).reverse.find? (greenCandidate recs base)
          with _ | ⟨t⟩
        · rw [hfin, apply_green_of_none (hfact3.trans hfind2)]
          exact hfact1 j (mem_groupIndices.2 ⟨hj, hgrp⟩)
        · exfalso
          rcases find?_reverse_max (groupIndices_pairwise recs 2) hfind2 with ⟨hpt, htm, _⟩
          rcases mem_groupIndices.1 htm with ⟨htl, htg⟩
          exact hnone t ((greenCandidate_base_iff hOpen (by omega) htl htg).1 hpt)
      · rintro ⟨i0, hi0⟩
        rcases hfind2 : (groupIndices recs 2).reverse.find? (greenCandidate recs base)
          with _ | ⟨t⟩
        · exfalso
          rcases hi0 with ⟨hl0, hg0, hig0, hb0⟩
          have hm0 : i0 ∈ (groupIndices recs 2).reverse :=
            List.mem_reverse.2 (mem_groupIndices.2 ⟨hl0, hg0⟩)
          have := List.find?_eq_none.1 hfind2 i0 hm0
          exact this ((greenCandidate_base_iff hOpen (by omega) hl0 hg0).2
            ⟨hl0, hg0, hig0, hb0⟩)
        · rcases find?_reverse_max (groupIndices_pairwise recs 2) hfind2 with ⟨hpt, htm, hmax⟩
          rcases mem_groupIndices.1 htm with ⟨htl, htg⟩
          have hcand : greenCand recs 2 t :=
            (greenCandidate_base_iff hOpen (by omega) htl htg).1 hpt
          have hfindf1 : (groupIndices recs 2).reverse.find? (greenCandidate recs f1) =
              some t := hfact3.trans hfind2
          have hlenf1 : f1.length = recs.length := by
            rw [hf1, apply_green_recursive]
            rcases hx : (groupIndices recs 1).reverse.find? (greenCandidate recs base)
              with _ | ⟨y⟩
            · exact hlen1
            · rw [List.length_set]; exact hlen1
          refine ⟨t, hcand, ?_, ?_, ?_⟩
          · intro k hk
            rcases hk with ⟨hkl, hkg, hkig, hkb⟩
            exact hmax k (mem_groupIndices.2 ⟨hkl, hkg⟩)
              ((greenCandidate_base_iff hOpen (by omega) hkl hkg).2 ⟨hkl, hkg, hkig, hkb⟩)
          · rw [hfin]
            exact apply_green_getD_target (by omega) hfindf1
          · intro j hj hgrp hne
            rw [hfin, apply_green_getD_ne hfindf1 hne]
            exact hfact1 j (mem_groupIndices.2 ⟨hj, hgrp⟩)

/-- A concrete Group-1 block: a Yellow row, an uncategorized row, and an
ignore-tagged row at the bottom. -/
def greenBlock : List SheetRow :=
  [⟨"Alice", "9", "2", "Group 1", "s2", "Mon 3:40", ""⟩,
   ⟨"Bob", "8", "1", "Group 1", "s1", "Mon 3:40", ""⟩,
   ⟨"Carol", "7", "0", "Group 1", "s0", "Mon 3:40", "IGNORE me"⟩]

/-- Witness for C1: on the concrete block, the Group-1 cohort has a
candidate, and the last candidate in order (the middle row — the bottom row
is ignore-tagged) is the one that turns Green while the rest keep their base
categories. -/
theorem C1_green_move_up_witness :
    ∃ i, greenCand greenBlock 1 i ∧ (∀ k, greenCand greenBlock 1 k → k ≤ i) ∧
      (apply_highlight_rules greenBlock).getD i none = some Highlight.green ∧
      ∀ j, j < greenBlock.length →
        parse_group_number (greenBlock.getD j default).keyword = 1 → j ≠ i →
        (apply_highlight_rules greenBlock).getD j none =
          (greenBlock.map baseFmt).getD j none :=
  ((C1_green_move_up greenBlock (by decide)).2.2 1 (Or.inl rfl)).2 ⟨1, by decide⟩


/-! ### The reconciliation pipeline (merge of roster and roll sheet) -/

/-- A record extracted by `parse_student_list` (the roster). -/
structure RosterRow where
  studentName : String
  age : String
  attendance : String
  rsComment : String
  keyword : String
deriving DecidableEq

/-- A record extracted by `parse_roll_sheet`. -/
structure RollRow where
  studentName : String
  skillLevel : String
  className : String
deriving DecidableEq

/-- The columns of `pd.DataFrame(data)` built from a list of row dicts: an
empty list yields a frame with no columns at all. -/
def rollColumns (roll : List RollRow) : List String :=
  if roll.isEmpty then [] else ["Student Name", "Skill Level", "Class Name"]

/-- The columns of the roster frame, likewise. -/
def rosterColumns (roster : List RosterRow) : List String :=
  if roster.isEmpty then []
  else ["Student Name", "Age", "Attendance", "Roll Sheet Comment", "Student Keyword"]

/-- The reconciled per-student record after the merge block
(`src/app.py:495-505`). -/
structure StudentRecord where
  studentName : String
  age : String
  attendance : String
  rsComment : String
  keyword : String
  skillLevel : String
  className : String
  sortDay : String
  sortTime : Nat
  timeStr : String
deriving DecidableEq

/-- `abbreviate_class_name` on an actual string. -/
def abbrevStr (s : String) : String :=
  ⟨replaceAll "(Ages ".data "(".data
    (replaceAll "Flip Side Ninjas".data "FS Ninjas".data
      (replaceAll "Homeschool".data "HS".data (stripWs (reSubDate s.data))))⟩

theorem abbreviate_class_name_some (s : String) :
    abbreviate_class_name (some s) = some (abbrevStr s) := rfl

/-- The merge block of the main script: `pd.merge(df_list, df_roll,
on="Student Name", how="left")` raises `KeyError` when either frame lacks
the `Student Name` column (in particular when the roll-sheet extractor
produced zero records, since an empty frame has no columns); otherwise the
left join keeps every roster row, drops rows whose stripped name is empty,
fills `s0`/`Not Found` defaults for unmatched students, abbreviates the
class name and derives the schedule columns. -/
def mergedPipeline (roster : List RosterRow) (roll : List RollRow) :
    Except String (List StudentRecord) :=
  if "Student Name" ∈ rosterColumns roster ∧ "Student Name" ∈ rollColumns roll then
    Except.ok
      ((roster.filter fun r => !(stripWs r.studentName.data).isEmpty).map fun r =>
        let m := roll.find? fun q => q.studentName == r.studentName
        let skill := match m with
          | some q => q.skillLevel
          | none => "s0"
        let cls0 := match m with
          | some q => q.className
          | none => "Not Found"
        let cls := abbrevStr cls0
        let info := parse_class_info (some cls)
        ⟨r.studentName, r.age, r.attendance, r.rsComment, r.keyword,
          skill, cls, info.1, info.2.1, info.2.2⟩)
  else Except.error "KeyError: Student Name"

/-- A one-student roster with a valid name. -/
def c3Roster : List RosterRow := [⟨"John Smith", "9", "3", "", "Group 1"⟩]

/-- Claim C3 at its failing input: reconciling any roster against an empty
roll sheet raises `KeyError` in `pd.merge` (the empty frame has no
`Student Name` column), instead of returning defaulted records; any
nonempty roll sheet takes the non-raising path. -/
theorem C3_empty_roll_raises :
    (∀ roster : List RosterRow,
      mergedPipeline roster [] = Except.error "KeyError: Student Name") ∧
    mergedPipeline c3Roster [] = Except.error "KeyError: Student Name" ∧
    (∀ roll : List RollRow, roll ≠ [] →
      ∃ out, mergedPipeline c3Roster roll = Except.ok out) := by
  refine ⟨?_, by rfl, ?_⟩
  · intro roster
    rw [mergedPipeline]
    rw [if_neg]
    intro hcontra
    have := hcontra.2
    rw [rollColumns] at this
    simp at this
  · intro roll hne
    rw [mergedPipeline, if_pos]
    · exact ⟨_, rfl⟩
    · constructor
      · rw [rosterColumns]; simp [c3Roster]
      · rw [rollColumns]
        rw [if_neg (by simpa using hne)]
        simp


/-! ### The spreadsheet export as an effect trace -/

/-- A destination worksheet: a tab title and its written grid. -/
structure Worksheet where
  title : String
  rows : List (List String)
deriving DecidableEq

/-- The state of one export run: the destination's worksheets and the index
of the next API call (used to inject a collaborator failure). -/
structure ExpState where
  sheets : List Worksheet
  calls : Nat
deriving DecidableEq

/-- One API call: reports whether the injected failure fires here and
advances the call counter. -/
def doCall (failAt : Nat) (st : ExpState) : Bool × ExpState :=
  (st.calls == failAt, ⟨st.sheets, st.calls + 1⟩)

/-- The unguarded tail of one day's rewrite: `add_worksheet`, `update` and
`batch_update`; a failure in any of them aborts the run. -/
def runDayCore (failAt : Nat) (day : String) (vals : List (List String))
    (st : ExpState) : Bool × ExpState :=
  let c2 := doCall failAt st
  if c2.1 then (true, c2.2)
  else
    let st4 : ExpState := ⟨c2.2.sheets ++ [⟨day, []⟩], c2.2.calls⟩
    let c3 := doCall failAt st4
    if c3.1 then (true, c3.2)
    else
      let st6 : ExpState :=
        ⟨c3.2.sheets.map (fun w => if w.title == day then ⟨day, vals⟩ else w), c3.2.calls⟩
      let c4 := doCall failAt st6
      if c4.1 then (true, c4.2) else (false, c4.2)

/-- One day of `update_google_sheet_advanced`: a guarded delete of the old
worksheet (its failure is swallowed by `except: pass`), then the unguarded
calls. -/
def runDay (failAt : Nat) (day : String) (vals : List (List String))
    (st : ExpState) : Bool × ExpState :=
  let c1 := doCall failAt st
  let st2 : ExpState :=
    if c1.1 then c1.2
    else ⟨c1.2.sheets.eraseP (fun w => w.title == day), c1.2.calls⟩
  runDayCore failAt day vals st2

def runDays (failAt : Nat) : List (String × List (List String)) → ExpState → Bool × ExpState
  | [], st => (false, st)
  | (d, v) :: rest, st =>
      let r := runDay failAt d v st
      if r.1 then (true, r.2) else runDays failAt rest r.2

/-- The whole export: the guarded `Sheet1` delete, then each nonempty day's
region rewrite. -/
def runExportAll (failAt : Nat) (days : List (String × List (List String)))
    (init : List Worksheet) : Bool × ExpState :=
  let c1 := doCall failAt ⟨init, 0⟩
  let st2 : ExpState :=
    if c1.1 then c1.2
    else ⟨c1.2.sheets.eraseP (fun w => w.title == "Sheet1"), c1.2.calls⟩
  runDays failAt days st2

/-- The intended complete rewrite of one day's region. -/
def applyDay (sheets : List Worksheet) (d : String × List (List String)) :
    List Worksheet :=
  sheets.eraseP (fun w => w.title == d.1) ++ [⟨d.1, d.2⟩]

/-- The intended complete export. -/
def applyAll (init : List Worksheet) (days : List (String × List (List String))) :
    List Worksheet :=
  days.foldl applyDay (init.eraseP (fun w => w.title == "Sheet1"))

/-- Counterexample to C9 as stated: with a previously-good `Mon` worksheet
in the destination, a collaborator failure on the `add_worksheet` call
(API call 2, after the old worksheet was already deleted) aborts the run
and leaves a destination holding neither the old nor the new `Mon` region —
the rewrite is not all-or-nothing. -/
theorem C9_counterexample :
    (runExportAll 2 [("Mon", [["new"]])] [⟨"Mon", [["old"]]⟩]).1 = true ∧
      (runExportAll 2 [("Mon", [["new"]])] [⟨"Mon", [["old"]]⟩]).2.sheets = [] ∧
      ([] : List Worksheet) ≠ [⟨"Mon", [["old"]]⟩] ∧
      ([] : List Worksheet) ≠ applyAll [⟨"Mon", [["old"]]⟩] [("Mon", [["new"]])] := by
  refine ⟨rfl, rfl, by decide, by decide⟩


/-- Pairwise-distinct worksheet titles. -/
def titlesNodup (sheets : List Worksheet) : Prop :=
  (sheets.map Worksheet.title).Nodup

theorem eraseP_no_title {sheets : List Worksheet} {d : String}
    (h : titlesNodup sheets) :
    ∀ w ∈ sheets.eraseP (fun w => w.title == d), ¬ w.title = d := by
  induction sheets with
  | nil => intro w hw; simp at hw
  | cons x xs ih =>
    rw [titlesNodup, List.map_cons, List.nodup_cons] at h
    intro w hw
    by_cases hx : (x.title == d) = true
    · rw [List.eraseP_cons] at hw
      rw [hx] at hw
      simp only [cond_true] at hw
      intro hcontra
      apply h.1
      rw [List.mem_map]
      refine ⟨w, hw, ?_⟩
      rw [hcontra]
      exact (eq_of_beq hx).symm
    · rw [List.eraseP_cons] at hw
      rw [(by simpa using hx : (x.title == d) = false)] at hw
      simp only [cond_false] at hw
      rcases List.mem_cons.1 hw with h1 | h1
      · rw [h1]
        intro hcontra
        exact hx (by simp [hcontra])
      · exact ih h.2 w h1

theorem map_update_of_no_title {sheets : List Worksheet} {d : String}
    {vals : List (List String)} (h : ∀ w ∈ sheets, ¬ w.title = d) :
    sheets.map (fun w => if w.title == d then (⟨d, vals⟩ : Worksheet) else w) = sheets := by
  have h2 : ∀ w ∈ sheets,
      (fun w => if w.title == d then (⟨d, vals⟩ : Worksheet) else w) w = id w := by
    intro w hw
    simp only [id]
    rw [if_neg]
    intro hcontra
    exact h w hw (eq_of_beq hcontra)
  rw [List.map_congr_left h2, List.map_id]

theorem applyDay_titlesNodup {sheets : List Worksheet}
    (h : titlesNodup sheets) (d : String × List (List String)) :
    titlesNodup (applyDay sheets d) := by
  rw [applyDay, titlesNodup, List.map_append]
  apply List.Nodup.append
  · exact List.Nodup.sublist ((List.eraseP_sublist _).map _) h
  · simp
  · intro t ht1 ht2
    simp at ht2
    rcases List.mem_map.1 ht1 with ⟨w, hw, hwt⟩
    exact eraseP_no_title h w hw (hwt.trans ht2)

theorem runDayCore_clean {failAt : Nat} {day : String} {vals : List (List String)}
    {st : ExpState} (hno : ∀ w ∈ st.sheets, ¬ w.title = day)
    (h : st.calls + 3 ≤ failAt) :
    runDayCore failAt day vals st =
      (false, ⟨st.sheets ++ [⟨day, vals⟩], st.calls + 3⟩) := by
  have h1 : (st.calls == failAt) = false := by simp; omega
  have h2 : (st.calls + 1 == failAt) = false := by simp; omega
  have h3 : (st.calls + 2 == failAt) = false := by simp; omega
  rw [runDayCore]
  simp only [doCall, h1, h2, h3, Bool.false_eq_true, if_false]
  rw [List.map_append, map_update_of_no_title hno]
  simp

theorem runDay_clean {failAt : Nat} {day : String} {vals : List (List String)}
    {st : ExpState} (hnd : titlesNodup st.sheets) (h : st.calls + 4 ≤ failAt) :
    runDay failAt day vals st = (false, ⟨applyDay st.sheets (day, vals), st.calls + 4⟩) := by
  have h0 : (st.calls == failAt) = false := by simp; omega
  rw [runDay]
  simp only [doCall, h0, Bool.false_eq_true, if_false]
  rw [runDayCore_clean (eraseP_no_title hnd) (by simp; omega)]
  rw [applyDay]

theorem runDays_clean {failAt : Nat}
    (days : List (String × List (List String))) :
    ∀ st : ExpState, titlesNodup st.sheets → st.calls + 4 * days.length ≤ failAt →
    runDays failAt days st =
      (false, ⟨days.foldl applyDay st.sheets, st.calls + 4 * days.length⟩) := by
  induction days with
  | nil => intro st hnd h; rw [runDays]; simp
  | cons d rest ih =>
    intro st hnd h
    rw [runDays]
    rw [runDay_clean hnd (by simp at h ⊢; omega)]
    simp only [Bool.false_eq_true, if_false]
    rw [ih ⟨applyDay st.sheets (d.1, d.2), st.calls + 4⟩
      (applyDay_titlesNodup hnd (d.1, d.2)) (by simp at h ⊢; omega)]
    rw [List.foldl_cons, List.length_cons,
      (by omega : st.calls + 4 + 4 * rest.length = st.calls + 4 * (rest.length + 1))]

theorem runDayCore_success_mem {failAt : Nat} {day : String}
    {vals : List (List String)} {st st' : ExpState}
    (h : runDayCore failAt day vals st = (false, st')) :
    (⟨day, vals⟩ : Worksheet) ∈ st'.sheets := by
  rw [runDayCore] at h
  simp only [doCall] at h
  split_ifs at h with hc2 hc3 hc4
  · simp at h
  · simp at h
  · simp at h
  · simp only [Prod.mk.injEq, true_and] at h
    rw [← h]
    rw [List.mem_map]
    refine ⟨⟨day, []⟩, List.mem_append_right _ (List.mem_cons_self _ _), ?_⟩
    simp

theorem runDayCore_preserves_mem {failAt : Nat} {day : String}
    {vals : List (List String)} {st st' : ExpState} {w : Worksheet}
    (hmem : w ∈ st.sheets) (hne : ¬ w.title = day)
    (h : runDayCore failAt day vals st = (false, st')) : w ∈ st'.sheets := by
  have hbne : ¬ (w.title == day) = true := fun hcontra => hne (eq_of_beq hcontra)
  rw [runDayCore] at h
  simp only [doCall] at h
  split_ifs at h with hc2 hc3 hc4
  · simp at h
  · simp at h
  · simp at h
  · simp only [Prod.mk.injEq, true_and] at h
    rw [← h]
    rw [List.mem_map]
    exact ⟨w, List.mem_append_left _ hmem, by rw [if_neg hbne]⟩

theorem runDay_success_mem {failAt : Nat} {day : String} {vals : List (List String)}
    {st st' : ExpState} (h : runDay failAt day vals st = (false, st')) :
    (⟨day, vals⟩ : Worksheet) ∈ st'.sheets := by
  rw [runDay] at h
  simp only [doCall] at h
  split_ifs at h with hc1
  · exact runDayCore_success_mem h
  · exact runDayCore_success_mem h

theorem runDay_preserves_mem {failAt : Nat} {day : String} {vals : List (List String)}
    {st st' : ExpState} {w : Worksheet} (hmem : w ∈ st.sheets) (hne : ¬ w.title = day)
    (h : runDay failAt day vals st = (false, st')) : w ∈ st'.sheets := by
  have hbne : ¬ (w.title == day) = true := fun hcontra => hne (eq_of_beq hcontra)
  rw [runDay] at h
  simp only [doCall] at h
  split_ifs at h with hc1
  · exact runDayCore_preserves_mem
      (show w ∈ (⟨st.sheets, st.calls + 1⟩ : ExpState).sheets from hmem) hne h
  · have hiff : w ∈ st.sheets.eraseP (fun x => x.title == day) ↔ w ∈ st.sheets :=
      List.mem_eraseP_of_neg hbne
    exact runDayCore_preserves_mem
      (show w ∈ (⟨st.sheets.eraseP (fun x => x.title == day), st.calls + 1⟩ : ExpState).sheets
        from hiff.2 hmem) hne h

theorem runDays_preserves_mem {failAt : Nat}
    (days : List (String × List (List String))) :
    ∀ (st st' : ExpState) (w : Worksheet), w ∈ st.sheets →
      (∀ d ∈ days, ¬ w.title = d.1) → runDays failAt days st = (false, st') →
      w ∈ st'.sheets := by
  induction days with
  | nil => intro st st' w hmem _ h; rw [runDays] at h; cases h; exact hmem
  | cons d rest ih =>
    intro st st' w hmem hall h
    rw [runDays] at h
    rcases hday : runDay failAt d.1 d.2 st with ⟨ab, st1⟩
    rw [hday] at h
    cases ab with
    | true => simp at h
    | false =>
      simp only [Bool.false_eq_true, if_false] at h
      exact ih st1 st' w
        (runDay_preserves_mem hmem (hall d (List.mem_cons_self d rest)) hday)
        (fun d' hd' => hall d' (List.mem_cons_of_mem d hd')) h

theorem runDays_success_mem {failAt : Nat}
    (days : List (String × List (List String))) :
    ∀ (st st' : ExpState), (days.map Prod.fst).Nodup →
      runDays failAt days st = (false, st') →
      ∀ d ∈ days, (⟨d.1, d.2⟩ : Worksheet) ∈ st'.sheets := by
  induction days with
  | nil => intro st st' _ _ d hd; simp at hd
  | cons d0 rest ih =>
    intro st st' hnd h d hd
    rw [runDays] at h
    rcases hday : runDay failAt d0.1 d0.2 st with ⟨ab, st1⟩
    rw [hday] at h
    cases ab with
    | true => simp at h
    | false =>
      simp only [Bool.false_eq_true, if_false] at h
      rcases List.mem_cons.1 hd with h1 | h1
      · subst h1
        apply runDays_preserves_mem rest st1 st' _ (runDay_success_mem hday) _ h
        intro d' hd'
        rw [List.map_cons, List.nodup_cons] at hnd
        intro hcontra
        apply hnd.1
        rw [List.mem_map]
        exact ⟨d', hd', hcontra.symm⟩
      · exact ih st1 st' (List.nodup_cons.1 (by simpa using hnd)).2 h d h1

/-- Claim C9 amended: a collaborator failure in an unguarded API call aborts
the run and is reported to the operator (the run result is the abort flag,
surfaced as an error message; a run that returns success has written every
day's region completely, so there is no silent partial success), and a run
with no failure produces exactly the complete export; but the rewrite is
NOT all-or-nothing — each day's old worksheet is deleted before its
replacement is created, so a failure between those calls loses the
previously-good region (the counterexample). -/
theorem C9_export_reporting :
    (∀ (days : List (String × List (List String))) (init : List Worksheet)
        (failAt : Nat), titlesNodup init → 1 + 4 * days.length ≤ failAt →
      runExportAll failAt days init =
        (false, ⟨applyAll init days, 1 + 4 * days.length⟩)) ∧
    (∀ (days : List (String × List (List String))) (init : List Worksheet)
        (failAt : Nat), (days.map Prod.fst).Nodup →
      (runExportAll failAt days init).1 = false →
      ∀ d ∈ days, (⟨d.1, d.2⟩ : Worksheet) ∈ (runExportAll failAt days init).2.sheets) := by
  constructor
  · intro days init failAt hnd h
    rw [runExportAll]
    simp only [doCall]
    have h0 : (0 == failAt) = false := by simp; omega
    rw [h0]
    simp only [Bool.false_eq_true, if_false]
    rw [runDays_clean days ⟨init.eraseP (fun w => w.title == "Sheet1"), 1⟩
      (List.Nodup.sublist ((List.eraseP_sublist _).map _) hnd) (by simp; omega)]
    rw [applyAll]
  · intro days init failAt hnd h
    rcases hrun : runDays failAt days
        (if (0 == failAt) = true then (⟨init, 1⟩ : ExpState)
         else ⟨(init.eraseP (fun w => w.title == "Sheet1")), 1⟩) with ⟨ab, st'⟩
    have hexp : runExportAll failAt days init = (ab, st') := by
      rw [runExportAll]
      simp only [doCall]
      split_ifs with hc
      · rw [← hrun, if_pos hc]
      · rw [← hrun, if_neg hc]
    rw [hexp] at h ⊢
    cases ab with
    | true => exact absurd h (by simp)
    | false => exact runDays_success_mem days _ st' hnd hrun

/-- Witness for the amended C9: a run with no collaborator failure reports
success and the destination then holds the complete new `Mon` region. -/
theorem C9_export_reporting_witness :
    ([("Mon", [["new"]])].map Prod.fst).Nodup ∧
      (runExportAll 99 [("Mon", [["new"]])] [⟨"Mon", [["old"]]⟩]).1 = false ∧
      (⟨"Mon", [["new"]]⟩ : Worksheet) ∈
        (runExportAll 99 [("Mon", [["new"]])] [⟨"Mon", [["old"]]⟩]).2.sheets :=
  ⟨by decide, by rfl,
    (C9_export_reporting.2 [("Mon", [["new"]])] [⟨"Mon", [["old"]]⟩] 99 (by decide)
      (by rfl)) ("Mon", [["new"]]) (List.mem_cons_self _ _)⟩


/-! ### Abbreviation commutes with schedule parsing: scanner machinery -/

/-- A character the time pattern `(\d{1,2}):(\d{2})` can consume. -/
def timeRel (c : Char) : Bool := c.isDigit || c = ':'

/-- A maximal word-character run equal (ignoring case) to a weekday name —
exactly the `\b(Mon|Tue|Wed|Thu|Fri)\b` matches. -/
def isDayRun (r : List Char) : Bool := dayWordsLower.contains (lowerL r)

/-- Run-based equivalent of the day search: `pend` holds the reversed
characters of the current word run; a completed run is emitted when it is a
weekday name. -/
def scanDay (pend : List Char) : List Char → Option (List Char)
  | [] => if isDayRun pend.reverse then some pend.reverse else none
  | c :: rest =>
      if wordChar c then scanDay (c :: pend) rest
      else if isDayRun pend.reverse then some pend.reverse else scanDay [] rest

/-- Run-based equivalent of the time search. -/
def scanTime (pend : List Char) : List Char → Option (List Char × List Char)
  | [] => findTimeSearch pend.reverse
  | c :: rest =>
      if timeRel c then scanTime (c :: pend) rest
      else
        match findTimeSearch pend.reverse with
        | some m => some m
        | none => scanTime [] rest

/-- Leftmost match of the date pattern `\d{1,2}/\d{1,2}/\d{4}.*`, if any. -/
def findDate : List Char → Option Nat
  | [] => none
  | c :: rest =>
      match tryDateAt (c :: rest) with
      | some n => some n
      | none => findDate rest

theorem reSubDateAux_skip (s : List Char) :
    ∀ k, reSubDateAux (k + 1) s = reSubDateAux 0 (s.drop (k + 1)) := by
  induction s with
  | nil => intro k; rfl
  | cons c rest ih =>
    intro k
    rw [reSubDateAux]
    cases k with
    | zero => rfl
    | succ k2 => rw [ih k2]; rfl

theorem reSubDate_of_no_match {s : List Char} (h : findDate s = none) :
    reSubDate s = s := by
  induction s with
  | nil => rfl
  | cons c rest ih =>
    rw [findDate] at h
    rcases htry : tryDateAt (c :: rest) with _ | ⟨n⟩
    · rw [htry] at h
      rw [reSubDate, reSubDateAux, htry]
      have := ih h
      rw [reSubDate] at this
      rw [this]
    · rw [htry] at h
      exact absurd h (by simp)

theorem replaceAllAux_skip (pat sub : List Char) (s : List Char) :
    ∀ k, replaceAllAux pat sub (k + 1) s = replaceAllAux pat sub 0 (s.drop (k + 1)) := by
  induction s with
  | nil => intro k; rfl
  | cons c rest ih =>
    intro k
    rw [replaceAllAux]
    cases k with
    | zero => rfl
    | succ k2 => rw [ih k2]; rfl

theorem replaceAll_nil (pat sub : List Char) : replaceAll pat sub [] = [] := rfl

theorem replaceAll_cons_hit {pat : List Char} (sub : List Char) {c : Char}
    {rest : List Char} (hne : pat ≠ []) (hpre : pat.isPrefixOf (c :: rest)) :
    replaceAll pat sub (c :: rest) =
      sub ++ replaceAll pat sub ((c :: rest).drop pat.length) := by
  rw [replaceAll, replaceAllAux, if_pos ⟨hne, hpre⟩]
  have hlen : ∃ m, pat.length = m + 1 := by
    cases pat with
    | nil => exact absurd rfl hne
    | cons a b => exact ⟨b.length, rfl⟩
  rcases hlen with ⟨m, hm⟩
  rw [hm]
  simp only [Nat.add_sub_cancel, List.drop_succ_cons]
  congr 1
  cases m with
  | zero => rw [List.drop_zero, replaceAll]
  | succ k => rw [replaceAllAux_skip, replaceAll]

theorem replaceAll_cons_not {pat sub : List Char} {c : Char} {rest : List Char}
    (h : ¬(pat ≠ [] ∧ pat.isPrefixOf (c :: rest))) :
    replaceAll pat sub (c :: rest) = c :: replaceAll pat sub rest := by
  rw [replaceAll, replaceAllAux, if_neg h]
  rfl

theorem isPrefixOf_append_drop {pat s : List Char} (h : pat.isPrefixOf s) :
    s = pat ++ s.drop pat.length := by
  rcases (List.isPrefixOf_iff_prefix.1 h) with ⟨t, ht⟩
  rw [← ht, List.drop_left]


theorem isDigit_toNat {c : Char} : c.isDigit = true ↔ 48 ≤ c.toNat ∧ c.toNat ≤ 57 := by
  simp only [Char.isDigit, Bool.and_eq_true, decide_eq_true_eq]
  constructor
  · rintro ⟨h1, h2⟩
    rw [ge_iff_le, UInt32.le_def, BitVec.le_def] at h1
    rw [UInt32.le_def, BitVec.le_def] at h2
    exact ⟨h1, h2⟩
  · rintro ⟨h1, h2⟩
    constructor
    · rw [ge_iff_le, UInt32.le_def, BitVec.le_def]
      exact h1
    · rw [UInt32.le_def, BitVec.le_def]
      exact h2

theorem pyWhite_not_timeRel {c : Char} (h : pyWhite c = true) : timeRel c = false := by
  simp only [pyWhite, Bool.or_eq_true, Bool.and_eq_true, decide_eq_true_eq] at h
  have h2 : c.isDigit = false := by
    cases hd : c.isDigit with
    | false => rfl
    | true =>
      exfalso
      have := isDigit_toNat.1 hd
      omega
  have h3 : ¬ c = ':' := by
    intro hcontra
    rw [char_eq_iff_toNat] at hcontra
    have h58 : c.toNat = 58 := hcontra
    omega
  simp [timeRel, h2, h3]

theorem tryTimeAt_not_digit {c : Char} (h : c.isDigit = false) (rest : List Char) :
    tryTimeAt (c :: rest) = none := by
  simp [tryTimeAt, h]

theorem timeRel_false_digit {h : Char} (hrel : timeRel h = false) :
    h.isDigit = false := by
  simp only [timeRel, Bool.or_eq_false_iff] at hrel
  exact hrel.1

theorem timeRel_false_colon {h : Char} (hrel : timeRel h = false) : ¬ h = ':' := by
  simp only [timeRel, Bool.or_eq_false_iff, decide_eq_false_iff_not] at hrel
  exact hrel.2

theorem tryTimeAt_append {v : List Char}
    (hv : ∀ c, v.head? = some c → timeRel c = false) (u : List Char) :
    tryTimeAt (u ++ v) = tryTimeAt u := by
  rcases v with _ | ⟨h, t⟩
  · simp
  · have hrel : timeRel h = false := hv h rfl
    have hd : h.isDigit = false := timeRel_false_digit hrel
    have hc : ¬ h = ':' := timeRel_false_colon hrel
    rcases u with _ | ⟨a, _ | ⟨b, _ | ⟨c3, _ | ⟨d4, _ | ⟨e, tu⟩⟩⟩⟩⟩
    · simp [tryTimeAt, hd]
    · rcases t with _ | ⟨x, _ | ⟨y, _ | ⟨z, t3⟩⟩⟩ <;>
        simp [tryTimeAt, tryTime1, hd, hc]
    · rcases t with _ | ⟨x, _ | ⟨y, _ | ⟨z, t3⟩⟩⟩ <;>
        simp [tryTimeAt, tryTime1, hd, hc]
    · rcases t with _ | ⟨x, _ | ⟨y, _ | ⟨z, t3⟩⟩⟩ <;>
        simp [tryTimeAt, tryTime1, hd, hc]
    · simp [tryTimeAt, tryTime1, hd, hc]
    · simp [tryTimeAt, tryTime1]

theorem findTimeSearch_append {u v : List Char}
    (hv : ∀ c, v.head? = some c → timeRel c = false) :
    findTimeSearch (u ++ v) =
      (match findTimeSearch u with
       | some m => some m
       | none => findTimeSearch v) := by
  induction u with
  | nil => rw [List.nil_append, findTimeSearch.eq_def]; rfl
  | cons a u2 ih =>
    rw [List.cons_append, findTimeSearch, findTimeSearch]
    rw [show a :: (u2 ++ v) = (a :: u2) ++ v from rfl, tryTimeAt_append hv]
    rcases htry : tryTimeAt (a :: u2) with _ | ⟨m⟩
    · exact ih
    · rfl

theorem scanTime_spec (t : List Char) :
    ∀ pend : List Char, (∀ c ∈ pend, timeRel c = true) →
    scanTime pend t = findTimeSearch (pend.reverse ++ t) := by
  induction t with
  | nil =>
    intro pend _
    rw [scanTime, List.append_nil]
  | cons c rest ih =>
    intro pend hpend
    rw [scanTime]
    by_cases hc : timeRel c = true
    · rw [if_pos hc]
      rw [ih (c :: pend) (by
        intro d hd
        rcases List.mem_cons.1 hd with h1 | h1
        · rw [h1]; exact hc
        · exact hpend d h1)]
      rw [List.reverse_cons, List.append_assoc]
      rfl
    · rw [if_neg hc]
      have hv : ∀ d, (c :: rest).head? = some d → timeRel d = false := by
        intro d hd
        simp at hd
        rw [← hd]
        simpa using hc
      rw [findTimeSearch_append hv]
      rcases hfind : findTimeSearch pend.reverse with _ | ⟨m⟩
      · rw [findTimeSearch]
        rw [tryTimeAt_not_digit (timeRel_false_digit (by simpa using hc)) rest]
        exact ih [] (by intro d hd; simp at hd)
      · rfl

theorem scanTime_allirrel_none (u : List Char)
    (hu : ∀ c ∈ u, timeRel c = false) : scanTime [] u = none := by
  induction u with
  | nil => rw [scanTime]; rfl
  | cons c rest ih =>
    rw [scanTime, if_neg (by simp [hu c (List.mem_cons_self c rest)])]
    rw [show (([] : List Char)).reverse = [] from rfl, findTimeSearch]
    exact ih fun d hd => hu d (List.mem_cons_of_mem c hd)

theorem scanTime_irrel_walk {u : List Char} (hu : ∀ c ∈ u, timeRel c = false)
    (hne : u ≠ []) (t : List Char) (pend : List Char) :
    scanTime pend (u ++ t) =
      (match findTimeSearch pend.reverse with
       | some m => some m
       | none => scanTime [] t) := by
  induction u generalizing pend with
  | nil => exact absurd rfl hne
  | cons c u2 ih =>
    rw [List.cons_append, scanTime,
      if_neg (by simp [hu c (List.mem_cons_self c u2)])]
    rcases hfind : findTimeSearch pend.reverse with _ | ⟨m⟩
    · rcases hu2 : u2 with _ | ⟨x, u3⟩
      · rfl
      · rw [← hu2]
        have := ih (fun d hd => hu d (List.mem_cons_of_mem c hd))
          (by rw [hu2]; simp) []
        rw [this]
        rw [show (([] : List Char)).reverse = [] from rfl, findTimeSearch]
    · rfl

theorem scanTime_replace {pat sub : List Char} (hpat : pat ≠ []) (hsub : sub ≠ [])
    (hpirr : ∀ c ∈ pat, timeRel c = false) (hsirr : ∀ c ∈ sub, timeRel c = false) :
    ∀ n s pend, s.length ≤ n → scanTime pend (replaceAll pat sub s) = scanTime pend s := by
  intro n
  induction n with
  | zero =>
    intro s pend hlen
    have : s = [] := by
      cases s with
      | nil => rfl
      | cons a b => simp at hlen
    rw [this]
    rfl
  | succ n ih =>
    intro s pend hlen
    rcases hs : s with _ | ⟨c, rest⟩
    · rfl
    · by_cases hpre : pat.isPrefixOf (c :: rest)
      · rw [replaceAll_cons_hit sub hpat hpre]
        have hdecomp : c :: rest = pat ++ (c :: rest).drop pat.length :=
          isPrefixOf_append_drop hpre
        rw [scanTime_irrel_walk hsirr hsub _ pend]
        conv_rhs => rw [hdecomp]
        rw [scanTime_irrel_walk hpirr hpat _ pend]
        rcases hfind : findTimeSearch pend.reverse with _ | ⟨m⟩
        · apply ih
          have h1 : pat.length ≥ 1 := by
            cases pat with
            | nil => exact absurd rfl hpat
            | cons a b => simp
          have h2 : ((c :: rest).drop pat.length).length = rest.length + 1 - pat.length := by
            rw [List.length_drop, List.length_cons]
          rw [hs] at hlen
          simp at hlen
          omega
        · rfl
      · rw [replaceAll_cons_not (by intro hcontra; exact hpre hcontra.2)]
        rw [scanTime, scanTime]
        by_cases hc : timeRel c = true
        · rw [if_pos hc, if_pos hc]
          apply ih
          rw [hs] at hlen
          simp at hlen
          omega
        · rw [if_neg hc, if_neg hc]
          rcases hfind : findTimeSearch pend.reverse with _ | ⟨m⟩
          · apply ih
            rw [hs] at hlen
            simp at hlen
            omega
          · rfl

theorem findTime_dropWhile_ws (x : List Char) :
    findTimeSearch (x.dropWhile pyWhite) = findTimeSearch x := by
  induction x with
  | nil => rfl
  | cons c rest ih =>
    rw [List.dropWhile]
    cases hw : pyWhite c with
    | false => rfl
    | true =>
      rw [findTimeSearch,
        tryTimeAt_not_digit (timeRel_false_digit (pyWhite_not_timeRel hw)) rest]
      exact ih

theorem findTimeSearch_irrel_none (u : List Char)
    (hu : ∀ c ∈ u, timeRel c = false) : findTimeSearch u = none := by
  induction u with
  | nil => rfl
  | cons c rest ih =>
    rw [findTimeSearch,
      tryTimeAt_not_digit (timeRel_false_digit (hu c (List.mem_cons_self c rest))) rest]
    exact ih fun d hd => hu d (List.mem_cons_of_mem c hd)

theorem findTime_append_ws {y u : List Char} (hu : ∀ c ∈ u, pyWhite c = true) :
    findTimeSearch (y ++ u) = findTimeSearch y := by
  have hv : ∀ c, u.head? = some c → timeRel c = false := by
    intro c hc
    rcases u with _ | ⟨d, t⟩
    · simp at hc
    · simp at hc
      rw [← hc]
      exact pyWhite_not_timeRel (hu d (List.mem_cons_self d t))
  rw [findTimeSearch_append hv]
  rcases hy : findTimeSearch y with _ | ⟨m⟩
  · exact findTimeSearch_irrel_none u
      fun c hc => pyWhite_not_timeRel (hu c hc)
  · rfl

theorem stripWs_decomp (x : List Char) :
    x.dropWhile pyWhite = stripWs x ++ ((x.dropWhile pyWhite).reverse.takeWhile pyWhite).reverse ∧
      ∀ c ∈ ((x.dropWhile pyWhite).reverse.takeWhile pyWhite).reverse, pyWhite c = true := by
  constructor
  · rw [stripWs]
    rw [← List.reverse_append]
    rw [List.takeWhile_append_dropWhile]
    rw [List.reverse_reverse]
  · intro c hc
    rw [List.mem_reverse] at hc
    exact List.mem_takeWhile_imp hc

theorem findTime_strip (x : List Char) :
    findTimeSearch (stripWs x) = findTimeSearch x := by
  rcases stripWs_decomp x with ⟨hdec, hws⟩
  have h1 : findTimeSearch (x.dropWhile pyWhite) = findTimeSearch (stripWs x) := by
    rw [hdec]
    exact findTime_append_ws hws
  rw [← h1, findTime_dropWhile_ws]

/-! ### Day-side scanner lemmas -/

theorem isDayRun_cases {r : List Char} (h : isDayRun r = true) :
    lowerL r = "mon".data ∨ lowerL r = "tue".data ∨ lowerL r = "wed".data ∨
      lowerL r = "thu".data ∨ lowerL r = "fri".data := by
  simpa [isDayRun, dayWordsLower] using h

theorem isDayRun_length {r : List Char} (h : isDayRun r = true) : r.length = 3 := by
  rcases isDayRun_cases h with h | h | h | h | h <;>
    (have h2 := congrArg List.length h; simpa [lowerL] using h2)

theorem wordChar_of_lower_range {c : Char} (h1 : 97 ≤ (pyLower c).toNat)
    (h2 : (pyLower c).toNat ≤ 122) : wordChar c = true := by
  rw [pyLower_toNat] at h1 h2
  rw [wordChar]
  by_cases h : 65 ≤ c.toNat ∧ c.toNat ≤ 90
  · rw [if_pos h] at h1 h2
    simp only [Bool.or_eq_true, Bool.and_eq_true, decide_eq_true_eq]
    omega
  · rw [if_neg h] at h1 h2
    simp only [Bool.or_eq_true, Bool.and_eq_true, decide_eq_true_eq]
    omega

theorem isDayRun_word {c1 c2 c3 : Char} (h : isDayRun [c1, c2, c3] = true) :
    wordChar c1 = true ∧ wordChar c2 = true ∧ wordChar c3 = true := by
  have hcases := isDayRun_cases h
  have e1 : "mon".data = ['m', 'o', 'n'] := rfl
  have e2 : "tue".data = ['t', 'u', 'e'] := rfl
  have e3 : "wed".data = ['w', 'e', 'd'] := rfl
  have e4 : "thu".data = ['t', 'h', 'u'] := rfl
  have e5 : "fri".data = ['f', 'r', 'i'] := rfl
  rw [e1, e2, e3, e4, e5] at hcases
  simp only [lowerL, List.map_cons, List.map_nil, List.cons.injEq, and_true] at hcases
  rcases hcases with ⟨h1, h2, h3⟩ | ⟨h1, h2, h3⟩ | ⟨h1, h2, h3⟩ | ⟨h1, h2, h3⟩ | ⟨h1, h2, h3⟩ <;>
    exact ⟨wordChar_of_lower_range (by rw [h1]; decide) (by rw [h1]; decide),
      wordChar_of_lower_range (by rw [h2]; decide) (by rw [h2]; decide),
      wordChar_of_lower_range (by rw [h3]; decide) (by rw [h3]; decide)⟩

theorem isDayRun_false_of_nonword {c : Char} (hc : wordChar c = false) :
    ∀ r : List Char, c ∈ r → isDayRun r = false := by
  intro r hmem
  cases hrun : isDayRun r with
  | false => rfl
  | true =>
    exfalso
    have hlen := isDayRun_length hrun
    rcases List.length_eq_three.1 hlen with ⟨a, b, d, rfl⟩
    rcases isDayRun_word hrun with ⟨ha, hb, hd⟩
    simp only [List.mem_cons, List.not_mem_nil, or_false] at hmem
    rcases hmem with rfl | rfl | rfl
    · rw [hc] at ha; exact absurd ha (by decide)
    · rw [hc] at hb; exact absurd hb (by decide)
    · rw [hc] at hd; exact absurd hd (by decide)

theorem tryDayAt_nonword_head {c : Char} (hc : wordChar c = false) (rest : List Char) :
    tryDayAt (c :: rest) = none := by
  rcases rest with _ | ⟨b, _ | ⟨d, t⟩⟩
  · rfl
  · rfl
  · have hrun : isDayRun [c, b, d] = false :=
      isDayRun_false_of_nonword hc _ (by simp)
    have hrun2 : dayWordsLower.contains [pyLower c, pyLower b, pyLower d] = false := hrun
    simp only [tryDayAt, hrun2, Bool.false_and, Bool.false_eq_true, if_false]

theorem takeWhile_nil_cases {p : Char → Bool} {l : List Char}
    (h : l.takeWhile p = []) : l = [] ∨ ∃ e t, l = e :: t ∧ p e = false := by
  rcases l with _ | ⟨e, t⟩
  · exact Or.inl rfl
  · right
    refine ⟨e, t, rfl, ?_⟩
    rw [List.takeWhile_cons] at h
    by_cases he : p e = true
    · rw [if_pos he] at h; simp at h
    · simpa using he

theorem takeWhile_cons_eq {p : Char → Bool} {l : List Char} {b : Char} {m : List Char}
    (h : l.takeWhile p = b :: m) :
    ∃ t, l = b :: t ∧ p b = true ∧ t.takeWhile p = m := by
  rcases l with _ | ⟨e, t⟩
  · simp at h
  · rw [List.takeWhile_cons] at h
    by_cases he : p e = true
    · rw [if_pos he, List.cons.injEq] at h
      obtain ⟨rfl, h2⟩ := h
      exact ⟨t, rfl, he, h2⟩
    · rw [if_neg he] at h; simp at h

theorem tryDayAt_of_run {c : Char} {rest : List Char}
    (h : isDayRun (c :: rest.takeWhile wordChar) = true) :
    tryDayAt (c :: rest) = some (c :: rest.takeWhile wordChar) := by
  have hlen := isDayRun_length h
  rw [List.length_cons] at hlen
  rcases htw : rest.takeWhile wordChar with _ | ⟨b, _ | ⟨d, _ | ⟨x, m⟩⟩⟩
  · rw [htw] at hlen; simp at hlen
  · rw [htw] at hlen; simp at hlen
  · rcases takeWhile_cons_eq htw with ⟨t1, rfl, hb, ht1⟩
    rcases takeWhile_cons_eq ht1 with ⟨t2, rfl, hd, ht2⟩
    rw [htw] at h
    have hcon : dayWordsLower.contains [pyLower c, pyLower b, pyLower d] = true := h
    rcases takeWhile_nil_cases ht2 with rfl | ⟨e, t3, rfl, he⟩
    · simp only [tryDayAt, hcon, Bool.true_and]
      exact if_pos trivial
    · simp only [tryDayAt, hcon, he, Bool.not_false, Bool.true_and]
      exact if_pos trivial
  · rw [htw] at hlen
    simp only [List.length_cons] at hlen
    omega

theorem tryDayAt_some_shape {c : Char} {rest : List Char} {m : List Char}
    (h : tryDayAt (c :: rest) = some m) :
    ∃ b d t, rest = b :: d :: t ∧ m = [c, b, d] ∧ isDayRun [c, b, d] = true ∧
      (t = [] ∨ ∃ e t2, t = e :: t2 ∧ wordChar e = false) := by
  rcases rest with _ | ⟨b, _ | ⟨d, t⟩⟩
  · simp [tryDayAt] at h
  · simp [tryDayAt] at h
  · refine ⟨b, d, t, rfl, ?_⟩
    simp only [tryDayAt] at h
    split_ifs at h with hcond
    · rw [Option.some_inj] at h
      rw [Bool.and_eq_true] at hcond
      refine ⟨h.symm, hcond.1, ?_⟩
      rcases t with _ | ⟨e, t2⟩
      · exact Or.inl rfl
      · right
        refine ⟨e, t2, rfl, ?_⟩
        have hb2 := hcond.2
        simp only [Bool.not_eq_eq_eq_not, Bool.not_true] at hb2
        exact hb2

theorem findDaySearch_false_cons (c : Char) (rest : List Char) :
    findDaySearch false (c :: rest) =
      (match tryDayAt (c :: rest) with
       | some m => some m
       | none => findDaySearch (wordChar c) rest) := by
  rw [findDaySearch]
  rfl

theorem findDaySearch_true_cons (c : Char) (rest : List Char) :
    findDaySearch true (c :: rest) = findDaySearch (wordChar c) rest := by
  rw [findDaySearch]
  rfl

theorem scanDay_cons_word {c : Char} (hc : wordChar c = true) (pend rest : List Char) :
    scanDay pend (c :: rest) = scanDay (c :: pend) rest := by
  rw [scanDay, if_pos hc]

theorem scanDay_cons_nonword {c : Char} (hc : wordChar c = false) (pend rest : List Char) :
    scanDay pend (c :: rest) =
      (if isDayRun pend.reverse then some pend.reverse else scanDay [] rest) := by
  rw [scanDay, if_neg (by simp [hc])]

theorem scanDay_nil (pend : List Char) :
    scanDay pend [] = (if isDayRun pend.reverse then some pend.reverse else none) := by
  rw [scanDay]

theorem dayEquiv : ∀ n : Nat, ∀ s : List Char, s.length ≤ n →
    (findDaySearch false s = scanDay [] s) ∧
    (∀ pend : List Char, pend ≠ [] → (∀ c ∈ pend, wordChar c = true) →
      isDayRun (pend.reverse ++ s.takeWhile wordChar) = false →
      findDaySearch true s = scanDay pend s) := by
  intro n
  induction n with
  | zero =>
    intro s hlen
    have hs : s = [] := by
      cases s with
      | nil => rfl
      | cons a b => simp at hlen
    subst hs
    constructor
    · rfl
    · intro pend hne hword hrun
      rw [List.takeWhile_nil, List.append_nil] at hrun
      rw [scanDay_nil, hrun, if_neg Bool.false_ne_true]
      rfl
  | succ n ih =>
    intro s hlen
    rcases s with _ | ⟨c, rest⟩
    · constructor
      · rfl
      · intro pend hne hword hrun
        rw [List.takeWhile_nil, List.append_nil] at hrun
        rw [scanDay_nil, hrun, if_neg Bool.false_ne_true]
        rfl
    · have hrest : rest.length ≤ n := by simp at hlen; omega
      constructor
      · rcases htry : tryDayAt (c :: rest) with _ | ⟨m⟩
        · rw [findDaySearch_false_cons, htry]
          by_cases hw : wordChar c = true
          · rw [hw, scanDay_cons_word hw]
            have hkey : isDayRun (([c] : List Char).reverse ++
                rest.takeWhile wordChar) = false := by
              have he : ([c] : List Char).reverse ++ rest.takeWhile wordChar =
                  c :: rest.takeWhile wordChar := rfl
              rw [he]
              cases hrun2 : isDayRun (c :: rest.takeWhile wordChar) with
              | false => rfl
              | true => exact absurd htry (by rw [tryDayAt_of_run hrun2]; simp)
            exact (ih rest hrest).2 [c] (by simp)
              (by intro x hx; simp at hx; rw [hx]; exact hw) hkey
          · rw [Bool.not_eq_true] at hw
            rw [hw, scanDay_cons_nonword hw]
            have h0 : isDayRun (([] : List Char)).reverse = false := rfl
            rw [h0, if_neg Bool.false_ne_true]
            exact (ih rest hrest).1
        · rcases tryDayAt_some_shape htry with ⟨b, d, t, rfl, rfl, hrun, hbound⟩
          rcases isDayRun_word hrun with ⟨hc1, hb1, hd1⟩
          rw [findDaySearch_false_cons, htry]
          rw [scanDay_cons_word hc1, scanDay_cons_word hb1, scanDay_cons_word hd1]
          have hrev : ([d, b, c] : List Char).reverse = [c, b, d] := rfl
          rcases hbound with rfl | ⟨e, t2, rfl, he⟩
          · rw [scanDay_nil, hrev, hrun]
            rfl
          · rw [scanDay_cons_nonword he, hrev, hrun]
            rfl
      · intro pend hne hword hrun
        by_cases hw : wordChar c = true
        · have htk : (c :: rest).takeWhile wordChar = c :: rest.takeWhile wordChar := by
            rw [List.takeWhile_cons, if_pos hw]
          rw [htk] at hrun
          rw [findDaySearch_true_cons, hw, scanDay_cons_word hw]
          have hkey : isDayRun ((c :: pend).reverse ++ rest.takeWhile wordChar) = false := by
            rw [List.reverse_cons, List.append_assoc]
            exact hrun
          refine (ih rest hrest).2 (c :: pend) (by simp) ?_ hkey
          intro x hx
          rcases List.mem_cons.1 hx with h1 | h1
          · rw [h1]; exact hw
          · exact hword x h1
        · rw [Bool.not_eq_true] at hw
          have htk : (c :: rest).takeWhile wordChar = [] := by
            rw [List.takeWhile_cons, hw]
            rfl
          rw [htk, List.append_nil] at hrun
          rw [findDaySearch_true_cons, hw, scanDay_cons_nonword hw, hrun,
            if_neg Bool.false_ne_true]
          exact (ih rest hrest).1

theorem findDay_eq_scanDay (s : List Char) : findDay s = scanDay [] s :=
  (dayEquiv s.length s le_rfl).1

theorem pyWhite_not_wordChar {c : Char} (h : pyWhite c = true) : wordChar c = false := by
  simp only [pyWhite, Bool.or_eq_true, Bool.and_eq_true, decide_eq_true_eq] at h
  cases hwc : wordChar c with
  | false => rfl
  | true =>
    simp only [wordChar, Bool.or_eq_true, Bool.and_eq_true, decide_eq_true_eq] at hwc
    omega

theorem tryDayAt_append_nonword {v : List Char} (hv : ∀ c ∈ v, wordChar c = false) :
    ∀ u : List Char, tryDayAt (u ++ v) = tryDayAt u := by
  intro u
  rcases u with _ | ⟨a, _ | ⟨b, _ | ⟨d, _ | ⟨e, tu⟩⟩⟩⟩
  · rw [List.nil_append]
    rcases v with _ | ⟨x, t⟩
    · rfl
    · rw [tryDayAt_nonword_head (hv x (List.mem_cons_self x t)) t]
      rfl
  · rcases v with _ | ⟨x, _ | ⟨y, t⟩⟩
    · rfl
    · rfl
    · have hrun : isDayRun [a, x, y] = false :=
        isDayRun_false_of_nonword (hv x (by simp)) _ (by simp)
      have hrun2 : dayWordsLower.contains [pyLower a, pyLower x, pyLower y] = false := hrun
      simp only [List.cons_append, List.nil_append, tryDayAt, hrun2, Bool.false_and,
        Bool.false_eq_true, if_false]
  · rcases v with _ | ⟨x, t⟩
    · rfl
    · have hrun : isDayRun [a, b, x] = false :=
        isDayRun_false_of_nonword (hv x (by simp)) _ (by simp)
      have hrun2 : dayWordsLower.contains [pyLower a, pyLower b, pyLower x] = false := hrun
      simp only [List.cons_append, List.nil_append, tryDayAt, hrun2, Bool.false_and,
        Bool.false_eq_true, if_false]
  · rcases v with _ | ⟨x, t⟩
    · rfl
    · have hx : wordChar x = false := hv x (by simp)
      simp [tryDayAt, hx]
  · rfl

theorem findDaySearch_nonword_none {u : List Char}
    (hu : ∀ c ∈ u, wordChar c = false) : ∀ b : Bool, findDaySearch b u = none := by
  induction u with
  | nil => intro b; rfl
  | cons c rest ih =>
    intro b
    cases b with
    | false =>
      rw [findDaySearch_false_cons,
        tryDayAt_nonword_head (hu c (List.mem_cons_self c rest)) rest]
      exact ih (fun d hd => hu d (List.mem_cons_of_mem c hd)) (wordChar c)
    | true =>
      rw [findDaySearch_true_cons]
      exact ih (fun d hd => hu d (List.mem_cons_of_mem c hd)) (wordChar c)

theorem findDaySearch_append_nonword {u : List Char} (hu : ∀ c ∈ u, wordChar c = false) :
    ∀ (y : List Char) (b : Bool), findDaySearch b (y ++ u) = findDaySearch b y := by
  intro y
  induction y with
  | nil =>
    intro b
    rw [List.nil_append, findDaySearch_nonword_none hu b]
    rfl
  | cons y0 yr ih =>
    intro b
    cases b with
    | false =>
      rw [List.cons_append, findDaySearch_false_cons, ← List.cons_append,
        tryDayAt_append_nonword hu (y0 :: yr), findDaySearch_false_cons]
      rcases htry : tryDayAt (y0 :: yr) with _ | m
      · exact ih (wordChar y0)
      · rfl
    | true =>
      rw [List.cons_append, findDaySearch_true_cons, findDaySearch_true_cons]
      exact ih (wordChar y0)

theorem findDay_dropWhile_ws (x : List Char) :
    findDaySearch false (x.dropWhile pyWhite) = findDaySearch false x := by
  induction x with
  | nil => rfl
  | cons c rest ih =>
    rw [List.dropWhile]
    cases hw : pyWhite c with
    | false => rfl
    | true =>
      rw [findDaySearch_false_cons,
        tryDayAt_nonword_head (pyWhite_not_wordChar hw) rest,
        pyWhite_not_wordChar hw]
      exact ih

theorem findDay_strip (x : List Char) :
    findDaySearch false (stripWs x) = findDaySearch false x := by
  rcases stripWs_decomp x with ⟨hdec, hws⟩
  have h1 : findDaySearch false (x.dropWhile pyWhite) = findDaySearch false (stripWs x) := by
    rw [hdec]
    exact findDaySearch_append_nonword
      (fun c hc => pyWhite_not_wordChar (hws c hc)) _ false
  rw [← h1, findDay_dropWhile_ws]

/-! ### Day preservation under the abbreviation rewrites -/

/-- A reversed word-run prefix that can never grow into a weekday match. -/
def neverDay (p : List Char) : Prop :=
  ∀ ext : List Char, isDayRun (p.reverse ++ ext) = false

theorem isDayRun_ne_three {r : List Char} (h : ¬ r.length = 3) : isDayRun r = false := by
  cases hrun : isDayRun r with
  | false => rfl
  | true => exact absurd (isDayRun_length hrun) h

theorem neverDay_of_long {p : List Char} (h : 3 < p.length) : neverDay p := by
  intro ext
  apply isDayRun_ne_three
  rw [List.length_append, List.length_reverse]
  omega

theorem neverDay_cons (c : Char) {p : List Char} (h : neverDay p) : neverDay (c :: p) := by
  intro ext
  rw [List.reverse_cons, List.append_assoc]
  exact h ([c] ++ ext)

theorem isDayRun_second {a b c : Char} (h : isDayRun [a, b, c] = true) :
    pyLower b = 'o' ∨ pyLower b = 'u' ∨ pyLower b = 'e' ∨ pyLower b = 'h' ∨
      pyLower b = 'r' := by
  have hcases := isDayRun_cases h
  have e1 : "mon".data = ['m', 'o', 'n'] := rfl
  have e2 : "tue".data = ['t', 'u', 'e'] := rfl
  have e3 : "wed".data = ['w', 'e', 'd'] := rfl
  have e4 : "thu".data = ['t', 'h', 'u'] := rfl
  have e5 : "fri".data = ['f', 'r', 'i'] := rfl
  rw [e1, e2, e3, e4, e5] at hcases
  simp only [lowerL, List.map_cons, List.map_nil, List.cons.injEq, and_true] at hcases
  rcases hcases with ⟨h1, h2, h3⟩ | ⟨h1, h2, h3⟩ | ⟨h1, h2, h3⟩ | ⟨h1, h2, h3⟩ | ⟨h1, h2, h3⟩
  · exact Or.inl h2
  · exact Or.inr (Or.inl h2)
  · exact Or.inr (Or.inr (Or.inl h2))
  · exact Or.inr (Or.inr (Or.inr (Or.inl h2)))
  · exact Or.inr (Or.inr (Or.inr (Or.inr h2)))

theorem isDayRun_third {a b c : Char} (h : isDayRun [a, b, c] = true) :
    pyLower c = 'n' ∨ pyLower c = 'e' ∨ pyLower c = 'd' ∨ pyLower c = 'u' ∨
      pyLower c = 'i' := by
  have hcases := isDayRun_cases h
  have e1 : "mon".data = ['m', 'o', 'n'] := rfl
  have e2 : "tue".data = ['t', 'u', 'e'] := rfl
  have e3 : "wed".data = ['w', 'e', 'd'] := rfl
  have e4 : "thu".data = ['t', 'h', 'u'] := rfl
  have e5 : "fri".data = ['f', 'r', 'i'] := rfl
  rw [e1, e2, e3, e4, e5] at hcases
  simp only [lowerL, List.map_cons, List.map_nil, List.cons.injEq, and_true] at hcases
  rcases hcases with ⟨h1, h2, h3⟩ | ⟨h1, h2, h3⟩ | ⟨h1, h2, h3⟩ | ⟨h1, h2, h3⟩ | ⟨h1, h2, h3⟩
  · exact Or.inl h3
  · exact Or.inr (Or.inl h3)
  · exact Or.inr (Or.inr (Or.inl h3))
  · exact Or.inr (Or.inr (Or.inr (Or.inl h3)))
  · exact Or.inr (Or.inr (Or.inr (Or.inr h3)))

theorem noDay_HS : ∀ x ext : List Char, isDayRun (x ++ 'H' :: 'S' :: ext) = false := by
  intro x ext
  cases hrun : isDayRun (x ++ 'H' :: 'S' :: ext) with
  | false => rfl
  | true =>
    exfalso
    have hlen := isDayRun_length hrun
    rw [List.length_append] at hlen
    simp only [List.length_cons] at hlen
    have hsplit : (x.length = 0 ∧ ext.length = 1) ∨ (x.length = 1 ∧ ext.length = 0) := by
      omega
    rcases hsplit with ⟨hx0, he1⟩ | ⟨hx1, he0⟩
    · have hx : x = [] := List.length_eq_zero.1 hx0
      subst hx
      rcases List.length_eq_one.1 he1 with ⟨e, rfl⟩
      rw [List.nil_append] at hrun
      rcases isDayRun_second hrun with h | h | h | h | h <;> exact absurd h (by decide)
    · rcases List.length_eq_one.1 hx1 with ⟨a, rfl⟩
      have he : ext = [] := List.length_eq_zero.1 he0
      subst he
      rw [show ([a] ++ 'H' :: 'S' :: [] : List Char) = [a, 'H', 'S'] from rfl] at hrun
      rcases isDayRun_third hrun with h | h | h | h | h <;> exact absurd h (by decide)

theorem noDay_FS : ∀ x : List Char, isDayRun (x ++ ['F', 'S']) = false := by
  intro x
  cases hrun : isDayRun (x ++ ['F', 'S']) with
  | false => rfl
  | true =>
    exfalso
    have hlen := isDayRun_length hrun
    rw [List.length_append] at hlen
    simp only [List.length_cons, List.length_nil] at hlen
    have hx1 : x.length = 1 := by omega
    rcases List.length_eq_one.1 hx1 with ⟨a, rfl⟩
    rw [show ([a] ++ ['F', 'S'] : List Char) = [a, 'F', 'S'] from rfl] at hrun
    rcases isDayRun_third hrun with h | h | h | h | h <;> exact absurd h (by decide)

theorem scanDay_walk_words {u : List Char} (hu : ∀ c ∈ u, wordChar c = true) :
    ∀ (p t : List Char), scanDay p (u ++ t) = scanDay (u.reverse ++ p) t := by
  induction u with
  | nil => intro p t; rfl
  | cons c u2 ih =>
    intro p t
    rw [List.cons_append, scanDay_cons_word (hu c (List.mem_cons_self c u2))]
    rw [ih (fun d hd => hu d (List.mem_cons_of_mem c hd)) (c :: p) t]
    rw [List.reverse_cons, List.append_assoc]
    rfl

theorem scanDay_walk_fs (p T : List Char) :
    scanDay p ("FS Ninjas".data ++ T) = scanDay ("Ninjas".data.reverse ++ []) T := by
  have h1 : ("FS Ninjas".data ++ T : List Char) =
      ['F', 'S'] ++ (' ' :: ("Ninjas".data ++ T)) := rfl
  have hw2 : ∀ c ∈ (['F', 'S'] : List Char), wordChar c = true := by decide
  have hwn : ∀ c ∈ "Ninjas".data, wordChar c = true := by decide
  have hwsp : wordChar ' ' = false := by decide
  rw [h1, scanDay_walk_words hw2 p, scanDay_cons_nonword hwsp]
  have efs : isDayRun ((['F', 'S'] : List Char).reverse ++ p).reverse = false := by
    rw [List.reverse_append, List.reverse_reverse]
    exact noDay_FS p.reverse
  rw [efs, if_neg Bool.false_ne_true, scanDay_walk_words hwn []]

theorem scanDay_walk_flipside (p T : List Char) :
    scanDay p ("Flip Side Ninjas".data ++ T) = scanDay ("Ninjas".data.reverse ++ []) T := by
  have h1 : ("Flip Side Ninjas".data ++ T : List Char) =
      "Flip".data ++ (' ' :: ("Side".data ++ (' ' :: ("Ninjas".data ++ T)))) := rfl
  have hwf : ∀ c ∈ "Flip".data, wordChar c = true := by decide
  have hws : ∀ c ∈ "Side".data, wordChar c = true := by decide
  have hwn : ∀ c ∈ "Ninjas".data, wordChar c = true := by decide
  have hwsp : wordChar ' ' = false := by decide
  rw [h1, scanDay_walk_words hwf p, scanDay_cons_nonword hwsp]
  have ef : isDayRun ("Flip".data.reverse ++ p).reverse = false := by
    apply isDayRun_ne_three
    rw [List.length_reverse, List.length_append, List.length_reverse]
    have h4 : ("Flip".data).length = 4 := rfl
    omega
  rw [ef, if_neg Bool.false_ne_true, scanDay_walk_words hws [], scanDay_cons_nonword hwsp]
  have es : isDayRun (("Side".data.reverse ++ ([] : List Char))).reverse = false := by decide
  rw [es, if_neg Bool.false_ne_true, scanDay_walk_words hwn []]

theorem scanDay_replace_homeschool :
    ∀ n s, s.length ≤ n → ∀ p₁ p₂ : List Char,
      (p₁ = p₂ ∨ (neverDay p₁ ∧ neverDay p₂)) →
      scanDay p₁ (replaceAll "Homeschool".data "HS".data s) = scanDay p₂ s := by
  intro n
  induction n with
  | zero =>
    intro s hlen p₁ p₂ hrel
    have hs : s = [] := by
      cases s with
      | nil => rfl
      | cons a b => simp at hlen
    subst hs
    rw [replaceAll_nil, scanDay_nil, scanDay_nil]
    rcases hrel with heq | ⟨h1, h2⟩
    · rw [heq]
    · have e1 : isDayRun p₁.reverse = false := by
        have h3 := h1 []
        rwa [List.append_nil] at h3
      have e2 : isDayRun p₂.reverse = false := by
        have h3 := h2 []
        rwa [List.append_nil] at h3
      rw [e1, e2, if_neg Bool.false_ne_true, if_neg Bool.false_ne_true]
  | succ n ih =>
    intro s hlen p₁ p₂ hrel
    rcases hs : s with _ | ⟨c, rest⟩
    · rw [replaceAll_nil, scanDay_nil, scanDay_nil]
      rcases hrel with heq | ⟨h1, h2⟩
      · rw [heq]
      · have e1 : isDayRun p₁.reverse = false := by
          have h3 := h1 []
          rwa [List.append_nil] at h3
        have e2 : isDayRun p₂.reverse = false := by
          have h3 := h2 []
          rwa [List.append_nil] at h3
        rw [e1, e2, if_neg Bool.false_ne_true, if_neg Bool.false_ne_true]
    · by_cases hpre : ("Homeschool".data).isPrefixOf (c :: rest)
      · rw [replaceAll_cons_hit _ (by decide) hpre]
        have hdecomp := isPrefixOf_append_drop hpre
        conv_rhs => rw [hdecomp]
        have hlenD : ((c :: rest).drop (("Homeschool".data).length)).length ≤ n := by
          rw [hs] at hlen
          rw [List.length_drop]
          have hp10 : ("Homeschool".data).length = 10 := rfl
          simp only [List.length_cons] at hlen ⊢
          omega
        have hwHS : ∀ x ∈ "HS".data, wordChar x = true := by decide
        have hwHome : ∀ x ∈ "Homeschool".data, wordChar x = true := by decide
        rw [scanDay_walk_words hwHS p₁, scanDay_walk_words hwHome p₂]
        refine ih _ hlenD _ _ (Or.inr ⟨?_, ?_⟩)
        · intro ext
          rw [List.reverse_append, List.reverse_reverse, List.append_assoc]
          exact noDay_HS p₁.reverse ext
        · apply neverDay_of_long
          rw [List.length_append, List.length_reverse]
          have hp10 : ("Homeschool".data).length = 10 := rfl
          omega
      · rw [replaceAll_cons_not (by intro hcontra; exact hpre hcontra.2)]
        have hlen2 : rest.length ≤ n := by
          rw [hs] at hlen
          simp only [List.length_cons] at hlen
          omega
        by_cases hw : wordChar c = true
        · rw [scanDay_cons_word hw, scanDay_cons_word hw]
          refine ih rest hlen2 _ _ ?_
          rcases hrel with heq | ⟨h1, h2⟩
          · exact Or.inl (by rw [heq])
          · exact Or.inr ⟨neverDay_cons c h1, neverDay_cons c h2⟩
        · rw [Bool.not_eq_true] at hw
          rw [scanDay_cons_nonword hw, scanDay_cons_nonword hw]
          rcases hrel with heq | ⟨h1, h2⟩
          · rw [heq]
            by_cases hd : isDayRun p₂.reverse = true
            · rw [if_pos hd, if_pos hd]
            · rw [if_neg hd, if_neg hd]
              exact ih rest hlen2 [] [] (Or.inl rfl)
          · have e1 : isDayRun p₁.reverse = false := by
              have h3 := h1 []
              rwa [List.append_nil] at h3
            have e2 : isDayRun p₂.reverse = false := by
              have h3 := h2 []
              rwa [List.append_nil] at h3
            rw [e1, e2, if_neg Bool.false_ne_true, if_neg Bool.false_ne_true]
            exact ih rest hlen2 [] [] (Or.inl rfl)

theorem scanDay_replace_flipside :
    ∀ n s, s.length ≤ n → ∀ p₁ p₂ : List Char,
      (p₁ = p₂ ∨ (neverDay p₁ ∧ neverDay p₂)) →
      scanDay p₁ (replaceAll "Flip Side Ninjas".data "FS Ninjas".data s) = scanDay p₂ s := by
  intro n
  induction n with
  | zero =>
    intro s hlen p₁ p₂ hrel
    have hs : s = [] := by
      cases s with
      | nil => rfl
      | cons a b => simp at hlen
    subst hs
    rw [replaceAll_nil, scanDay_nil, scanDay_nil]
    rcases hrel with heq | ⟨h1, h2⟩
    · rw [heq]
    · have e1 : isDayRun p₁.reverse = false := by
        have h3 := h1 []
        rwa [List.append_nil] at h3
      have e2 : isDayRun p₂.reverse = false := by
        have h3 := h2 []
        rwa [List.append_nil] at h3
      rw [e1, e2, if_neg Bool.false_ne_true, if_neg Bool.false_ne_true]
  | succ n ih =>
    intro s hlen p₁ p₂ hrel
    rcases hs : s with _ | ⟨c, rest⟩
    · rw [replaceAll_nil, scanDay_nil, scanDay_nil]
      rcases hrel with heq | ⟨h1, h2⟩
      · rw [heq]
      · have e1 : isDayRun p₁.reverse = false := by
          have h3 := h1 []
          rwa [List.append_nil] at h3
        have e2 : isDayRun p₂.reverse = false := by
          have h3 := h2 []
          rwa [List.append_nil] at h3
        rw [e1, e2, if_neg Bool.false_ne_true, if_neg Bool.false_ne_true]
    · by_cases hpre : ("Flip Side Ninjas".data).isPrefixOf (c :: rest)
      · rw [replaceAll_cons_hit _ (by decide) hpre]
        have hdecomp := isPrefixOf_append_drop hpre
        conv_rhs => rw [hdecomp]
        have hlenD : ((c :: rest).drop (("Flip Side Ninjas".data).length)).length ≤ n := by
          rw [hs] at hlen
          rw [List.length_drop]
          have hp16 : ("Flip Side Ninjas".data).length = 16 := rfl
          simp only [List.length_cons] at hlen ⊢
          omega
        rw [scanDay_walk_fs p₁, scanDay_walk_flipside p₂]
        exact ih _ hlenD _ _ (Or.inl rfl)
      · rw [replaceAll_cons_not (by intro hcontra; exact hpre hcontra.2)]
        have hlen2 : rest.length ≤ n := by
          rw [hs] at hlen
          simp only [List.length_cons] at hlen
          omega
        by_cases hw : wordChar c = true
        · rw [scanDay_cons_word hw, scanDay_cons_word hw]
          refine ih rest hlen2 _ _ ?_
          rcases hrel with heq | ⟨h1, h2⟩
          · exact Or.inl (by rw [heq])
          · exact Or.inr ⟨neverDay_cons c h1, neverDay_cons c h2⟩
        · rw [Bool.not_eq_true] at hw
          rw [scanDay_cons_nonword hw, scanDay_cons_nonword hw]
          rcases hrel with heq | ⟨h1, h2⟩
          · rw [heq]
            by_cases hd : isDayRun p₂.reverse = true
            · rw [if_pos hd, if_pos hd]
            · rw [if_neg hd, if_neg hd]
              exact ih rest hlen2 [] [] (Or.inl rfl)
          · have e1 : isDayRun p₁.reverse = false := by
              have h3 := h1 []
              rwa [List.append_nil] at h3
            have e2 : isDayRun p₂.reverse = false := by
              have h3 := h2 []
              rwa [List.append_nil] at h3
            rw [e1, e2, if_neg Bool.false_ne_true, if_neg Bool.false_ne_true]
            exact ih rest hlen2 [] [] (Or.inl rfl)

theorem scanDay_replace_ages :
    ∀ n s, s.length ≤ n → ∀ p₁ p₂ : List Char,
      (p₁ = p₂ ∨ (neverDay p₁ ∧ neverDay p₂)) →
      scanDay p₁ (replaceAll "(Ages ".data "(".data s) = scanDay p₂ s := by
  intro n
  induction n with
  | zero =>
    intro s hlen p₁ p₂ hrel
    have hs : s = [] := by
      cases s with
      | nil => rfl
      | cons a b => simp at hlen
    subst hs
    rw [replaceAll_nil, scanDay_nil, scanDay_nil]
    rcases hrel with heq | ⟨h1, h2⟩
    · rw [heq]
    · have e1 : isDayRun p₁.reverse = false := by
        have h3 := h1 []
        rwa [List.append_nil] at h3
      have e2 : isDayRun p₂.reverse = false := by
        have h3 := h2 []
        rwa [List.append_nil] at h3
      rw [e1, e2, if_neg Bool.false_ne_true, if_neg Bool.false_ne_true]
  | succ n ih =>
    intro s hlen p₁ p₂ hrel
    rcases hs : s with _ | ⟨c, rest⟩
    · rw [replaceAll_nil, scanDay_nil, scanDay_nil]
      rcases hrel with heq | ⟨h1, h2⟩
      · rw [heq]
      · have e1 : isDayRun p₁.reverse = false := by
          have h3 := h1 []
          rwa [List.append_nil] at h3
        have e2 : isDayRun p₂.reverse = false := by
          have h3 := h2 []
          rwa [List.append_nil] at h3
        rw [e1, e2, if_neg Bool.false_ne_true, if_neg Bool.false_ne_true]
    · by_cases hpre : ("(Ages ".data).isPrefixOf (c :: rest)
      · rw [replaceAll_cons_hit _ (by decide) hpre]
        have hdecomp := isPrefixOf_append_drop hpre
        conv_rhs => rw [hdecomp]
        have hlenD : ((c :: rest).drop (("(Ages ".data).length)).length ≤ n := by
          rw [hs] at hlen
          rw [List.length_drop]
          have hp6 : ("(Ages ".data).length = 6 := rfl
          simp only [List.length_cons] at hlen ⊢
          omega
        generalize hD : (c :: rest).drop (("(Ages ".data).length) = D
        rw [hD] at hlenD
        have hparen : wordChar '(' = false := by decide
        have hwsp : wordChar ' ' = false := by decide
        have hwAges : ∀ x ∈ "Ages".data, wordChar x = true := by decide
        rw [show ("(".data ++ replaceAll "(Ages ".data "(".data D : List Char) =
          '(' :: replaceAll "(Ages ".data "(".data D from rfl]
        rw [show ("(Ages ".data ++ D : List Char) =
          '(' :: ("Ages".data ++ (' ' :: D)) from rfl]
        rw [scanDay_cons_nonword hparen, scanDay_cons_nonword hparen]
        rw [scanDay_walk_words hwAges [], scanDay_cons_nonword hwsp]
        have ea : isDayRun (("Ages".data.reverse ++ ([] : List Char))).reverse = false := by
          decide
        rw [ea, if_neg Bool.false_ne_true]
        rcases hrel with heq | ⟨h1, h2⟩
        · rw [heq]
          by_cases hd : isDayRun p₂.reverse = true
          · rw [if_pos hd, if_pos hd]
          · rw [if_neg hd, if_neg hd]
            exact ih D hlenD [] [] (Or.inl rfl)
        · have e1 : isDayRun p₁.reverse = false := by
            have h3 := h1 []
            rwa [List.append_nil] at h3
          have e2 : isDayRun p₂.reverse = false := by
            have h3 := h2 []
            rwa [List.append_nil] at h3
          rw [e1, e2, if_neg Bool.false_ne_true, if_neg Bool.false_ne_true]
          exact ih D hlenD [] [] (Or.inl rfl)
      · rw [replaceAll_cons_not (by intro hcontra; exact hpre hcontra.2)]
        have hlen2 : rest.length ≤ n := by
          rw [hs] at hlen
          simp only [List.length_cons] at hlen
          omega
        by_cases hw : wordChar c = true
        · rw [scanDay_cons_word hw, scanDay_cons_word hw]
          refine ih rest hlen2 _ _ ?_
          rcases hrel with heq | ⟨h1, h2⟩
          · exact Or.inl (by rw [heq])
          · exact Or.inr ⟨neverDay_cons c h1, neverDay_cons c h2⟩
        · rw [Bool.not_eq_true] at hw
          rw [scanDay_cons_nonword hw, scanDay_cons_nonword hw]
          rcases hrel with heq | ⟨h1, h2⟩
          · rw [heq]
            by_cases hd : isDayRun p₂.reverse = true
            · rw [if_pos hd, if_pos hd]
            · rw [if_neg hd, if_neg hd]
              exact ih rest hlen2 [] [] (Or.inl rfl)
          · have e1 : isDayRun p₁.reverse = false := by
              have h3 := h1 []
              rwa [List.append_nil] at h3
            have e2 : isDayRun p₂.reverse = false := by
              have h3 := h2 []
              rwa [List.append_nil] at h3
            rw [e1, e2, if_neg Bool.false_ne_true, if_neg Bool.false_ne_true]
            exact ih rest hlen2 [] [] (Or.inl rfl)

theorem findDay_replace_homeschool (s : List Char) :
    findDay (replaceAll "Homeschool".data "HS".data s) = findDay s := by
  rw [findDay_eq_scanDay, findDay_eq_scanDay]
  exact scanDay_replace_homeschool s.length s le_rfl [] [] (Or.inl rfl)

theorem findDay_replace_flipside (s : List Char) :
    findDay (replaceAll "Flip Side Ninjas".data "FS Ninjas".data s) = findDay s := by
  rw [findDay_eq_scanDay, findDay_eq_scanDay]
  exact scanDay_replace_flipside s.length s le_rfl [] [] (Or.inl rfl)

theorem findDay_replace_ages (s : List Char) :
    findDay (replaceAll "(Ages ".data "(".data s) = findDay s := by
  rw [findDay_eq_scanDay, findDay_eq_scanDay]
  exact scanDay_replace_ages s.length s le_rfl [] [] (Or.inl rfl)

theorem scanTime_nil_spec (t : List Char) : scanTime [] t = findTimeSearch t := by
  have h := scanTime_spec t [] (by intro c hc; simp at hc)
  simpa using h

theorem findTime_replace_homeschool (s : List Char) :
    findTimeSearch (replaceAll "Homeschool".data "HS".data s) = findTimeSearch s := by
  have h := @scanTime_replace "Homeschool".data "HS".data (by decide) (by decide)
    (by decide) (by decide) s.length s [] le_rfl
  rw [← scanTime_nil_spec, ← scanTime_nil_spec]
  exact h

theorem findTime_replace_flipside (s : List Char) :
    findTimeSearch (replaceAll "Flip Side Ninjas".data "FS Ninjas".data s) =
      findTimeSearch s := by
  have h := @scanTime_replace "Flip Side Ninjas".data "FS Ninjas".data (by decide)
    (by decide) (by decide) (by decide) s.length s [] le_rfl
  rw [← scanTime_nil_spec, ← scanTime_nil_spec]
  exact h

theorem findTime_replace_ages (s : List Char) :
    findTimeSearch (replaceAll "(Ages ".data "(".data s) = findTimeSearch s := by
  have h := @scanTime_replace "(Ages ".data "(".data (by decide) (by decide)
    (by decide) (by decide) s.length s [] le_rfl
  rw [← scanTime_nil_spec, ← scanTime_nil_spec]
  exact h

/-- Counterexample to claim C4 as stated: for the class string
`"Mon 1/2/2024 3:40"` the abbreviation step's date-removal rewrite
(`re.sub(r'\d{1,2}/\d{1,2}/\d{4}.*', '', ...)`) deletes the date AND the
rest of the line including the time, so parsing after abbreviation loses
the `3:40` time that parsing before abbreviation extracts. -/
theorem C4_counterexample :
    parse_class_info (abbreviate_class_name (some "Mon 1/2/2024 3:40")) ≠
      parse_class_info (some "Mon 1/2/2024 3:40") := by
  decide

/-- Claim C4 amended: abbreviation commutes with schedule parsing for every
class-name value that contains no date pattern `\d{1,2}/\d{1,2}/\d{4}`
(including `None`) — on such inputs the date-removal rewrite is the
identity, and the whitespace strip and the three literal substitutions
(`Homeschool`→`HS`, `Flip Side Ninjas`→`FS Ninjas`, `(Ages `→`(`) never
create, destroy or move a `\b(Mon|Tue|Wed|Thu|Fri)\b` or
`(\d{1,2}):(\d{2})` match, so the extracted day, sort time and display
time are unchanged. -/
theorem C4_abbreviation_commutes (c : Option String)
    (h : ∀ s, c = some s → findDate s.data = none) :
    parse_class_info (abbreviate_class_name c) = parse_class_info c := by
  cases c with
  | none => rfl
  | some s =>
    have hdate : findDate s.data = none := h s rfl
    have hresub : reSubDate s.data = s.data := reSubDate_of_no_match hdate
    have hday : findDay (abbrevStr s).data = findDay s.data := by
      show findDay (replaceAll "(Ages ".data "(".data
          (replaceAll "Flip Side Ninjas".data "FS Ninjas".data
            (replaceAll "Homeschool".data "HS".data
              (stripWs (reSubDate s.data))))) = findDay s.data
      rw [hresub, findDay_replace_ages, findDay_replace_flipside,
        findDay_replace_homeschool]
      exact findDay_strip s.data
    have htime : findTimeSearch (abbrevStr s).data = findTimeSearch s.data := by
      show findTimeSearch (replaceAll "(Ages ".data "(".data
          (replaceAll "Flip Side Ninjas".data "FS Ninjas".data
            (replaceAll "Homeschool".data "HS".data
              (stripWs (reSubDate s.data))))) = findTimeSearch s.data
      rw [hresub, findTime_replace_ages, findTime_replace_flipside,
        findTime_replace_homeschool]
      exact findTime_strip s.data
    rw [abbreviate_class_name_some]
    by_cases hnf : s = "Not Found"
    · subst hnf
      have habb : abbrevStr "Not Found" = "Not Found" := by decide
      rw [habb]
    · by_cases habb : abbrevStr s = "Not Found"
      · have hd0 : findDay s.data = none := by
          rw [← hday, habb]
          decide
        have ht0 : findTimeSearch s.data = none := by
          rw [← htime, habb]
          decide
        simp only [parse_class_info]
        rw [if_pos habb, if_neg hnf, hd0, ht0]
      · simp only [parse_class_info]
        rw [if_neg habb, if_neg hnf, hday, htime]

/-- Witness: the amended C4 theorem applied at a date-free class string that
exercises all three substitutions plus a day and a time. -/
theorem C4_abbreviation_commutes_witness :
    (∀ s, (some "Homeschool Flip Side Ninjas Mon 3:40 (Ages 5-7)" : Option String) =
        some s → findDate s.data = none) ∧
      parse_class_info
          (abbreviate_class_name (some "Homeschool Flip Side Ninjas Mon 3:40 (Ages 5-7)")) =
        parse_class_info (some "Homeschool Flip Side Ninjas Mon 3:40 (Ages 5-7)") :=
  ⟨by intro s hs; cases hs; decide,
   C4_abbreviation_commutes (some "Homeschool Flip Side Ninjas Mon 3:40 (Ages 5-7)")
     (by intro s hs; cases hs; decide)⟩

end NinjaPark
